import Mathlib

/-!
Verification of the VeritasAI text-analysis core against its specification.

The development shallowly embeds the Python sources under `src/` into Lean:

* `src/src/utils/text_processor.py` (class `TextProcessor`),
* `src/src/domain/value_objects/text_hash.py` (class `TextHash`),
* `src/src/domain/value_objects/confidence_score.py` (class `ConfidenceScore`),
* `src/src/domain/entities/text.py` (class `Text`),
* `src/src/domain/entities/classification.py` (`ClassificationType`, `Classification`),
* `src/src/domain/entities/analysis_result.py` (`AnalysisSource`, `AnalysisResult`).

Modelling conventions:

* Python strings are `List Char` (Unicode scalar values).  The embedding covers
  text whose characters are handled uniformly by the Python `re`/`str`
  machinery: the whitespace class, the C0/C1 control ranges and the ASCII and
  Latin-1 letter ranges are modelled exactly; `unicodedata.normalize("NFC", s)`
  is the identity on NFC-normal text (in particular on all examples used
  below) and is embedded as the identity stage `nfc`.
* Python `float` arithmetic on confidence values and scores is embedded as
  exact rational arithmetic (`ℚ`); every constant appearing in the sources
  (0.8, 0.4, 0.2, 1e-4 rounding, the reliability table, the performance
  weights) is exactly representable, and `round(x, 4)` is embedded as
  round-half-to-even on exact rationals, which agrees with CPython `round`
  at every input considered in the specification's boundary cases.
* Python `int` is `ℤ`, fallible construction is `Except String`.
* `pydantic` v2 semantics: the declared `Field` constraints of a model are
  checked first, and the `@field_validator(..., mode = after)` functions run
  only on values that passed those constraints.  Construction is embedded as
  a function returning `Except String`.
* `datetime` fields (`created_at`, `expires_at`) and the free-form
  `api_response_raw` diagnostic payload are not referenced by any claim and
  are omitted from the record embeddings.
-/

deriving instance DecidableEq for Except

/-! ### Character classes used by the Python regexes and string methods -/

/-- Whitespace in the sense of Python's `str.isspace` / the `re` class `\s`
(ASCII whitespace, the C0 separators, NEL, NBSP and the Unicode space
separators). -/
def isPySpace (c : Char) : Bool :=
  let n := c.toNat
  n == 32 || n == 9 || n == 10 || n == 13 || n == 11 || n == 12 ||
  (28 ≤ n && n ≤ 31) || n == 0x85 || n == 0xA0 || n == 0x1680 ||
  (0x2000 ≤ n && n ≤ 0x200A) || n == 0x2028 || n == 0x2029 ||
  n == 0x202F || n == 0x205F || n == 0x3000

/-- Characters matched by `TextProcessor.CONTROL_CHARS_PATTERN`, the regex
`[\u0000-\u001F\u007F-\u009F]`. -/
def isCtrlChar (c : Char) : Bool :=
  let n := c.toNat
  n ≤ 0x1F || (0x7F ≤ n && n ≤ 0x9F)

/-- Characters matched by `TextProcessor.PUNCTUATION_CLEANUP_PATTERN`'s class
`[.,;:!?]`. -/
def isTermPunct (c : Char) : Bool :=
  c == '.' || c == ',' || c == ';' || c == ':' || c == '!' || c == '?'

/-- Python `str.lower` restricted to the Basic Latin and Latin-1 letters
(the fragment of the Unicode case table the embedding covers). -/
def toLowerPy (c : Char) : Char :=
  let n := c.toNat
  if 65 ≤ n && n ≤ 90 then Char.ofNat (n + 32)
  else if 0xC0 ≤ n && n ≤ 0xDE && n ≠ 0xD7 then Char.ofNat (n + 32)
  else c

/-- Word characters in the sense of the `re` class `\w`, restricted to the
Basic Latin and Latin-1 fragment: ASCII letters, digits, underscore, and the
Latin-1 letters (excluding the two Latin-1 operators `×` and `÷`). -/
def isWordChar (c : Char) : Bool :=
  let n := c.toNat
  (48 ≤ n && n ≤ 57) || (65 ≤ n && n ≤ 90) || (97 ≤ n && n ≤ 122) || n == 95 ||
  (0xC0 ≤ n && n ≤ 0xFF && n ≠ 0xD7 && n ≠ 0xF7) || n == 0xAA || n == 0xB5 || n == 0xBA

/-! ### Whitespace handling shared by the pipelines -/

/-- Replacement of one maximal whitespace run by a single ASCII space,
the effect of `re.sub(r'\s+', ' ', s)`.  The Boolean state records whether
the previous input character belonged to a whitespace run. -/
def collapseWsAux : Bool → List Char → List Char
  | _, [] => []
  | prevWs, c :: rest =>
    if isPySpace c then
      if prevWs then collapseWsAux true rest
      else ' ' :: collapseWsAux true rest
    else c :: collapseWsAux false rest

/-- Embedding of `re.sub(r'\s+', ' ', s)` (pattern `WHITESPACE_PATTERN`). -/
def collapseWs (l : List Char) : List Char := collapseWsAux false l

/-- Embedding of Python `str.strip()` (drop leading and trailing whitespace). -/
def pyStrip (l : List Char) : List Char :=
  ((l.dropWhile isPySpace).reverse.dropWhile isPySpace).reverse

/-- Embedding of `unicodedata.normalize('NFC', s)`.  The embedding covers
NFC-normal text, on which canonical composition is the identity. -/
def nfc (l : List Char) : List Char := l

namespace TextProcessor

/-- Step 1 of `TextProcessor.normalize`: `text.replace('\t', ' ').replace('\n', ' ').replace('\r', ' ')`. -/
def tabNlCrToSpace (c : Char) : Char :=
  if c == '\t' || c == '\n' || c == '\r' then ' ' else c

/-- Collapse of every maximal run of `[.,;:!?]` characters to its first
character.  `PUNCTUATION_CLEANUP_PATTERN.sub(lambda m: m.group(0)[0], s)`
rewrites every run of length at least two to its first character and leaves
runs of length one unchanged, which is the same transformation.  The Boolean
state records whether the previous character belonged to a punctuation run
(in which case the current run continuation is dropped). -/
def punctCleanupAux : Bool → List Char → List Char
  | _, [] => []
  | inRun, c :: rest =>
    if isTermPunct c then
      if inRun then punctCleanupAux true rest
      else c :: punctCleanupAux true rest
    else c :: punctCleanupAux false rest

/-- Embedding of the `PUNCTUATION_CLEANUP_PATTERN` substitution. -/
def punctCleanup (l : List Char) : List Char := punctCleanupAux false l

/-- Embedding of the two `QUOTE_NORMALIZATION_PATTERNS` substitutions.  In the
committed source the first character class contains only the straight double
quote and the second only the straight apostrophe (the file's non-ASCII
characters were lost to an encoding slip, cf. the `'nÃ£o'` stop word), so each
substitution replaces a straight quote by itself. -/
def quoteNorm (l : List Char) : List Char :=
  (l.map fun c => if c == '"' then '"' else c).map fun c => if c == '\'' then '\'' else c

/-- Pure core of `TextProcessor.normalize` (the transformation applied to a
non-empty input): control-character conversion and removal, whitespace
collapsing, NFC, trimming, and — for hashing — lowercasing, punctuation
cleanup and quote normalization, in the source's order. -/
def normalizeCore (text : List Char) (for_hashing : Bool) : List Char :=
  let s1 := (text.map tabNlCrToSpace).filter (fun c => !isCtrlChar c)
  let s2 := collapseWs s1
  let s3 := nfc s2
  let s4 := pyStrip s3
  if for_hashing then quoteNorm (punctCleanup (s4.map toLowerPy)) else s4

/-- Embedding of `TextProcessor.normalize`, including the `ValueError` raised
on an empty string. -/
def normalize (text : List Char) (for_hashing : Bool) : Except String (List Char) :=
  if text = [] then .error "Text must be a non-empty string"
  else .ok (normalizeCore text for_hashing)

end TextProcessor

/-! ### SHA-256 (`hashlib.sha256(...).hexdigest()`), embedded over `Nat` -/

/-- UTF-8 encoding of one Unicode scalar value (`str.encode('utf-8')`). -/
def utf8Char (c : Char) : List Nat :=
  let n := c.toNat
  if n < 0x80 then [n]
  else if n < 0x800 then [0xC0 + n / 64, 0x80 + n % 64]
  else if n < 0x10000 then [0xE0 + n / 4096, 0x80 + (n / 64) % 64, 0x80 + n % 64]
  else [0xF0 + n / 262144, 0x80 + (n / 4096) % 64, 0x80 + (n / 64) % 64, 0x80 + n % 64]

/-- UTF-8 encoding of a string as a byte list. -/
def utf8Encode (l : List Char) : List Nat := (l.map utf8Char).flatten

/-- Modulus for 32-bit words. -/
def w32 : Nat := 4294967296

/-- Right rotation of a 32-bit word. -/
def rotr (n : Nat) (x : Nat) : Nat :=
  ((x >>> n) ||| (x <<< (32 - n))) % w32

/-- Round constants of SHA-256. -/
def sha256K : List Nat :=
  [1116352408, 1899447441, 3049323471, 3921009573, 961987163, 1508970993,
   2453635748, 2870763221, 3624381080, 310598401, 607225278, 1426881987,
   1925078388, 2162078206, 2614888103, 3248222580, 3835390401, 4022224774,
   264347078, 604807628, 770255983, 1249150122, 1555081692, 1996064986,
   2554220882, 2821834349, 2952996808, 3210313671, 3336571891, 3584528711,
   113926993, 338241895, 666307205, 773529912, 1294757372, 1396182291,
   1695183700, 1986661051, 2177026350, 2456956037, 2730485921, 2820302411,
   3259730800, 3345764771, 3516065817, 3600352804, 4094571909, 275423344,
   430227734, 506948616, 659060556, 883997877, 958139571, 1322822218,
   1537002063, 1747873779, 1955562222, 2024104815, 2227730452, 2361852424,
   2428436474, 2756734187, 3204031479, 3329325298]

/-- Standard SHA-256 padding: `0x80`, zeros to 56 mod 64, 64-bit big-endian
bit length. -/
def padMessage (msg : List Nat) : List Nat :=
  let l := msg.length
  let padZeros := (56 + 64 - (l + 1) % 64) % 64
  let bitLen := l * 8
  msg ++ [0x80] ++ List.replicate padZeros 0 ++
    [(bitLen >>> 56) % 256, (bitLen >>> 48) % 256, (bitLen >>> 40) % 256, (bitLen >>> 32) % 256,
     (bitLen >>> 24) % 256, (bitLen >>> 16) % 256, (bitLen >>> 8) % 256, bitLen % 256]

/-- Big-endian grouping of bytes into 32-bit words. -/
def bytesToWords : List Nat → List Nat
  | a :: b :: c :: d :: rest => (a * 16777216 + b * 65536 + c * 256 + d) :: bytesToWords rest
  | _ => []

/-- Message-schedule extension: append the next scheduled word `n` times. -/
def extendSchedule (w : List Nat) : Nat → List Nat
  | 0 => w
  | n + 1 =>
    let i := w.length
    let w15 := w.getD (i - 15) 0
    let w2 := w.getD (i - 2) 0
    let w16 := w.getD (i - 16) 0
    let w7 := w.getD (i - 7) 0
    let s0 := Nat.xor (rotr 7 w15) (Nat.xor (rotr 18 w15) (w15 >>> 3))
    let s1 := Nat.xor (rotr 17 w2) (Nat.xor (rotr 19 w2) (w2 >>> 10))
    extendSchedule (w ++ [(w16 + s0 + w7 + s1) % w32]) n

/-- Working state of the SHA-256 compression function. -/
structure Hash8 where
  a : Nat
  b : Nat
  c : Nat
  d : Nat
  e : Nat
  f : Nat
  g : Nat
  h : Nat
deriving DecidableEq

/-- One round of the SHA-256 compression function. -/
def compressStep (st : Hash8) (kw : Nat × Nat) : Hash8 :=
  let s1 := Nat.xor (rotr 6 st.e) (Nat.xor (rotr 11 st.e) (rotr 25 st.e))
  let ch := Nat.xor (Nat.land st.e st.f) (Nat.land ((w32 - 1) - st.e) st.g)
  let temp1 := (st.h + s1 + ch + kw.1 + kw.2) % w32
  let s0 := Nat.xor (rotr 2 st.a) (Nat.xor (rotr 13 st.a) (rotr 22 st.a))
  let maj := Nat.xor (Nat.land st.a st.b) (Nat.xor (Nat.land st.a st.c) (Nat.land st.b st.c))
  let temp2 := (s0 + maj) % w32
  ⟨(temp1 + temp2) % w32, st.a, st.b, st.c, (st.d + temp1) % w32, st.e, st.f, st.g⟩

/-- Processing of one 64-byte block. -/
def processBlock (h : Hash8) (block : List Nat) : Hash8 :=
  let w := extendSchedule (bytesToWords block) 48
  let st := (sha256K.zip w).foldl compressStep h
  ⟨(h.a + st.a) % w32, (h.b + st.b) % w32, (h.c + st.c) % w32, (h.d + st.d) % w32,
   (h.e + st.e) % w32, (h.f + st.f) % w32, (h.g + st.g) % w32, (h.h + st.h) % w32⟩

/-- Fuel-indexed splitting into 64-byte blocks (structural recursion so that
concrete digests reduce definitionally). -/
def chunksAux : Nat → List Nat → List (List Nat)
  | 0, _ => []
  | _, [] => []
  | fuel + 1, l => l.take 64 :: chunksAux fuel (l.drop 64)

/-- Splitting of a byte list into 64-byte blocks. -/
def chunks64 (l : List Nat) : List (List Nat) := chunksAux l.length l

/-- Initial hash state of SHA-256. -/
def sha256Init : Hash8 :=
  ⟨1779033703, 3144134277, 1013904242, 2773480762, 1359893119, 2600822924, 528734635, 1541459225⟩

/-- Lowercase hexadecimal digit. -/
def hexDigit (n : Nat) : Char :=
  if n < 10 then Char.ofNat (48 + n) else Char.ofNat (87 + n)

/-- Lowercase hexadecimal rendering of one 32-bit word (8 digits). -/
def wordToHex (x : Nat) : List Char :=
  [hexDigit ((x >>> 28) % 16), hexDigit ((x >>> 24) % 16), hexDigit ((x >>> 20) % 16),
   hexDigit ((x >>> 16) % 16), hexDigit ((x >>> 12) % 16), hexDigit ((x >>> 8) % 16),
   hexDigit ((x >>> 4) % 16), hexDigit (x % 16)]

/-- SHA-256 digest of a byte list, rendered as 64 lowercase hex characters
(`hashlib.sha256(b).hexdigest()`). -/
def sha256hex (msg : List Nat) : List Char :=
  let final := (chunks64 (padMessage msg)).foldl processBlock sha256Init
  wordToHex final.a ++ wordToHex final.b ++ wordToHex final.c ++ wordToHex final.d ++
  wordToHex final.e ++ wordToHex final.f ++ wordToHex final.g ++ wordToHex final.h

namespace TextProcessor

/-- Embedding of `TextProcessor.generate_hash`: SHA-256 over the UTF-8 bytes
of the for-hashing normalization, or `ValueError` on an empty string. -/
def generate_hash (text : List Char) : Except String (List Char) :=
  if text = [] then .error "Text must be a non-empty string"
  else .ok (sha256hex (utf8Encode (normalizeCore text true)))

end TextProcessor

/-! ### Shared list helpers (Python `str.split`, `dict.fromkeys`) -/

/-- Accumulator-based splitting on whitespace runs; `cur` holds the reversed
current word.  Embeds Python `str.split()` (with no separator argument):
maximal non-whitespace runs, empties discarded. -/
def splitWsAux : List Char → List Char → List (List Char)
  | cur, [] => if cur = [] then [] else [cur.reverse]
  | cur, c :: rest =>
    if isPySpace c then
      if cur = [] then splitWsAux [] rest else cur.reverse :: splitWsAux [] rest
    else splitWsAux (c :: cur) rest

/-- Embedding of Python `s.split()`. -/
def splitWs (l : List Char) : List (List Char) := splitWsAux [] l

/-- Deduplication keeping first occurrences, with an explicit seen set;
embeds `list(dict.fromkeys(...))` and the seen-set loops in the validators. -/
def dedupFirstAux {α : Type} [DecidableEq α] : List α → List α → List α
  | _, [] => []
  | seen, x :: rest =>
    if x ∈ seen then dedupFirstAux seen rest else x :: dedupFirstAux (x :: seen) rest

/-- Deduplication keeping first occurrences (`list(dict.fromkeys(l))`). -/
def dedupFirst {α : Type} [DecidableEq α] (l : List α) : List α := dedupFirstAux [] l

/-! ### `TextHash` (src/src/domain/value_objects/text_hash.py) -/

/-- Characters matched by the `TextHash` pattern class `[a-f0-9]`. -/
def isHexLowerChar (c : Char) : Bool :=
  let n := c.toNat
  (48 ≤ n && n ≤ 57) || (97 ≤ n && n ≤ 102)

/-- Value object holding a SHA-256 digest string. -/
structure TextHash where
  value : List Char
deriving DecidableEq

namespace TextHash

/-- Pydantic construction of a `TextHash`: the declared field constraints
(length exactly 64, pattern `^[a-f0-9]{64}$`, with `str_strip_whitespace`)
followed by the `validate_hash_format` validator, which re-checks the pattern
on the lowercased value and stores the lowercased value. -/
def mk' (v : List Char) : Except String TextHash :=
  let v := pyStrip v
  if ¬ (v.length = 64 ∧ v.all isHexLowerChar) then
    .error "String should match pattern"
  else
    let lv := v.map toLowerPy
    if lv.length = 64 ∧ lv.all isHexLowerChar then .ok ⟨lv⟩
    else .error "Hash must be a 64-character hexadecimal string"

/-- Embedding of `TextHash._normalize_text`: strip, collapse whitespace,
lowercase, NFC — and nothing else (no punctuation cleanup, no quote
normalization). -/
def normalizeText (t : List Char) : List Char :=
  nfc ((collapseWs (pyStrip t)).map toLowerPy)

/-- Embedding of `TextHash.from_text`: `ValueError` on the empty string,
otherwise the SHA-256 hex digest of the UTF-8 bytes of `_normalize_text`. -/
def from_text (t : List Char) : Except String TextHash :=
  if t = [] then .error "Text must be a non-empty string"
  else mk' (sha256hex (utf8Encode (normalizeText t)))

end TextHash

/-! ### `Text` (src/src/domain/entities/text.py) -/

/-- Unicode general-category-C test.  On the character fragment the embedding
covers, the category-C characters are exactly the C0/C1 controls. -/
def isCatC (c : Char) : Bool := isCtrlChar c

/-- ASCII lowercase letter (`[a-z]` in the language-code regex). -/
def isLowerAlpha (c : Char) : Bool := 97 ≤ c.toNat && c.toNat ≤ 122

/-- ASCII uppercase letter (`[A-Z]` in the language-code regex). -/
def isUpperAlpha (c : Char) : Bool := 65 ≤ c.toNat && c.toNat ≤ 90

/-- Match of the language-code regex `^[a-z]{2}(-[A-Z]{2})?$`. -/
def isoShape : List Char → Bool
  | [a, b] => isLowerAlpha a && isLowerAlpha b
  | [a, b, h, c, d] => isLowerAlpha a && isLowerAlpha b && h == '-' && isUpperAlpha c && isUpperAlpha d
  | _ => false

/-- Entity holding a validated unit of analyzable content. -/
structure Text where
  original_content : List Char
  normalized_content : List Char
  text_hash : TextHash
  language : List Char
  word_count : Nat
  character_count : Nat
  keywords : List (List Char)
  source_url : Option (List Char)
deriving DecidableEq

namespace Text

/-- Embedding of `Text._normalize_content`: collapse whitespace on the
stripped content, NFC, then drop category-C characters other than
tab/newline/carriage-return. -/
def _normalize_content (content : List Char) : List Char :=
  (nfc (collapseWs (pyStrip content))).filter
    (fun c => !isCatC c || c == '\n' || c == '\r' || c == '\t')

/-- Embedding of the `validate_content_length` validator. -/
def validate_content_length (v : List Char) : Except String (List Char) :=
  if v = [] ∨ pyStrip v = [] then .error "Text content cannot be empty"
  else
    let stripped := pyStrip v
    if stripped.length < 10 then .error "Text must be at least 10 characters long"
    else if 2000 < stripped.length then .error "Text cannot exceed 2000 characters"
    else .ok stripped

/-- Embedding of the `validate_language_code` validator: `None` and
regex-mismatching codes fall back to `"pt"`, matches are lowercased. -/
def validate_language_code (v : Option (List Char)) : List Char :=
  match v with
  | none => "pt".data
  | some l => if isoShape l then l.map toLowerPy else "pt".data

/-- Loop of the `validate_keywords` validator: strip and lowercase each
keyword, keep the non-blank ones of length at least 2, first occurrence
only. -/
def keywordsAux : List (List Char) → List (List Char) → List (List Char)
  | _, [] => []
  | seen, k :: rest =>
    let ck := (pyStrip k).map toLowerPy
    if ck ≠ [] ∧ 2 ≤ ck.length ∧ ck ∉ seen then ck :: keywordsAux (ck :: seen) rest
    else keywordsAux seen rest

/-- Embedding of the `validate_keywords` validator (cleaning loop, then the
20-entry cap). -/
def validate_keywords (v : List (List Char)) : List (List Char) :=
  (keywordsAux [] v).take 20

/-- Violation test for the pydantic `Field(min_length=2, max_length=5)`
constraint on the optional `language` field (absent values skip it). -/
def langFieldViolation : Option (List Char) → Bool
  | none => false
  | some l => decide (l.length < 2) || decide (5 < l.length)

/-- Violation test for the pydantic `Field(max_length=500)` constraint on the
optional `source_url` field. -/
def urlFieldViolation : Option (List Char) → Bool
  | none => false
  | some u => decide (500 < u.length)

/-- Pydantic construction of a `Text`: the declared field constraints in
field order, then the validators, as in the source model. -/
def mk' (original_content normalized_content : List Char) (text_hash : TextHash)
    (language : Option (List Char)) (word_count : Nat) (character_count : Nat)
    (keywords : List (List Char)) (source_url : Option (List Char)) :
    Except String Text :=
  if original_content.length < 10 ∨ 2000 < original_content.length then
    .error "String length out of range for original_content"
  else
    match validate_content_length original_content with
    | .error e => .error e
    | .ok oc =>
      if langFieldViolation language then .error "String length out of range for language"
      else if word_count < 1 then .error "Input should be greater than or equal to 1"
      else if character_count < 10 ∨ 2000 < character_count then
        .error "Input out of range for character_count"
      else if 20 < keywords.length then .error "List should have at most 20 items"
      else if urlFieldViolation source_url then .error "String length out of range for source_url"
      else .ok ⟨oc, normalized_content, text_hash, validate_language_code language,
                word_count, character_count, validate_keywords keywords, source_url⟩

/-- Embedding of the `Text.create` factory. -/
def create (content : List Char) (source_url : Option (List Char))
    (language : Option (List Char)) (keywords : Option (List (List Char))) :
    Except String Text :=
  if content = [] ∨ pyStrip content = [] then .error "Content cannot be empty"
  else
    let original_content := pyStrip content
    let normalized_content := _normalize_content original_content
    match TextHash.from_text normalized_content with
    | .error e => .error e
    | .ok text_hash =>
      let word_count := (splitWs normalized_content).length
      let character_count := original_content.length
      let langArg : List Char :=
        match language with
        | none => "pt".data
        | some l => if l = [] then "pt".data else l
      let kwArg : List (List Char) :=
        match keywords with
        | none => []
        | some ks => ks
      mk' original_content normalized_content text_hash (some langArg) word_count
        character_count kwArg source_url

/-- Embedding of `Text.__eq__`: equality is decided solely by the stored
`TextHash` value. -/
def beqByHash (a b : Text) : Bool := a.text_hash.value == b.text_hash.value

/-- Argument of `Text.__hash__` (`hash(self.text_hash.value)`): two `Text`
entities receive equal Python hashes exactly when these keys are equal. -/
def hashKey (a : Text) : List Char := a.text_hash.value

end Text

/-! ### `ConfidenceScore` (src/src/domain/value_objects/confidence_score.py) -/

/-- Round-half-to-even to an integer, the rounding mode of Python `round`. -/
def roundHalfEven (q : ℚ) : ℤ :=
  let f : ℤ := ⌊q⌋
  let r : ℚ := q - (f : ℚ)
  if r < 1/2 then f
  else if 1/2 < r then f + 1
  else if f % 2 = 0 then f else f + 1

/-- Embedding of Python `round(v, 4)` on exact rationals. -/
def roundTo4 (q : ℚ) : ℚ := (roundHalfEven (q * 10000) : ℚ) / 10000

/-- Value object holding a confidence score. -/
structure ConfidenceScore where
  value : ℚ
deriving DecidableEq

namespace ConfidenceScore

/-- Pydantic construction of a `ConfidenceScore`: the field constraints
`ge=0.0, le=1.0`, then the `validate_range` validator, which re-checks the
range and stores `round(v, 4)`. -/
def of (v : ℚ) : Except String ConfidenceScore :=
  if ¬ (0 ≤ v ∧ v ≤ 1) then .error "Input should be in the range 0 to 1"
  else if ¬ (0 ≤ v ∧ v ≤ 1) then .error "Confidence score must be between 0.0 and 1.0"
  else .ok ⟨roundTo4 v⟩

end ConfidenceScore

/-! ### `ClassificationType` and `Classification` (src/src/domain/entities/classification.py) -/

/-- Discrete classification categories. -/
inductive ClassificationType
  | RELIABLE
  | INCONCLUSIVE
  | UNFOUNDED
  | FAKE
deriving DecidableEq

namespace ClassificationType

/-- Embedding of `ClassificationType.from_confidence`. -/
def from_confidence (confidence : ConfidenceScore) : ClassificationType :=
  if 0.8 ≤ confidence.value then RELIABLE
  else if 0.4 ≤ confidence.value then INCONCLUSIVE
  else if 0.2 ≤ confidence.value then UNFOUNDED
  else FAKE

end ClassificationType

/-- Entity holding a classification decision. -/
structure Classification where
  classification_type : ClassificationType
  confidence : ConfidenceScore
  reasoning : Option (List Char)
  evidence_sources : List (List Char)
deriving DecidableEq

namespace Classification

/-- Embedding of the `validate_evidence_sources` validator: strip entries,
drop blanks, deduplicate keeping first occurrences, cap at 10. -/
def validate_evidence_sources (v : List (List Char)) : List (List Char) :=
  (dedupFirst ((v.filter (fun s => pyStrip s ≠ [])).map pyStrip)).take 10

/-- Embedding of the `validate_reasoning` validator. -/
def validate_reasoning (v : Option (List Char)) : Option (List Char) :=
  match v with
  | none => none
  | some r => let c := pyStrip r; if c = [] then none else some c

/-- Violation test for the pydantic `Field(max_length=1000)` constraint on
the optional `reasoning` field. -/
def reasoningFieldViolation : Option (List Char) → Bool
  | none => false
  | some r => decide (1000 < r.length)

/-- Pydantic construction of a `Classification`: field constraints
(`max_length=1000` on reasoning, `max_items=10` on evidence sources — which
pydantic v2 enforces as a list-length constraint before the validators run),
then the validators. -/
def mk' (ty : ClassificationType) (confidence : ConfidenceScore)
    (reasoning : Option (List Char)) (evidence_sources : List (List Char)) :
    Except String Classification :=
  if reasoningFieldViolation reasoning then .error "String should have at most 1000 characters"
  else if 10 < evidence_sources.length then .error "List should have at most 10 items"
  else .ok ⟨ty, confidence, validate_reasoning reasoning, validate_evidence_sources evidence_sources⟩

end Classification

/-! ### `AnalysisSource` and `AnalysisResult` (src/src/domain/entities/analysis_result.py) -/

/-- Enumeration of analysis sources. -/
inductive AnalysisSource
  | FACT_CHECK
  | LLM
  | VECTOR_SEARCH
  | CACHE
  | HYBRID
  | MANUAL
deriving DecidableEq

namespace AnalysisSource

/-- String value of each enum member. -/
def value : AnalysisSource → List Char
  | FACT_CHECK => "fact_check".data
  | LLM => "llm".data
  | VECTOR_SEARCH => "vector_search".data
  | CACHE => "cache".data
  | HYBRID => "hybrid".data
  | MANUAL => "manual".data

/-- Embedding of `AnalysisSource.get_reliability_score` (fixed lookup). -/
def get_reliability_score : AnalysisSource → ℚ
  | FACT_CHECK => 0.95
  | VECTOR_SEARCH => 0.85
  | LLM => 0.75
  | HYBRID => 0.90
  | CACHE => 1.0
  | MANUAL => 1.0

end AnalysisSource

/-- Entity holding one completed analysis. -/
structure AnalysisResult where
  text : Text
  classification : Classification
  source : AnalysisSource
  processing_time_ms : ℤ
  cost_cents : ℤ
  fact_check_sources : List (List Char)
  similar_texts_found : ℤ
  metadata : List (List Char × List Char)
deriving DecidableEq

namespace AnalysisResult

/-- Loop of the `validate_fact_check_sources` validator. -/
def validateFcAux : List (List Char) → List (List Char) → List (List Char)
  | _, [] => []
  | seen, s :: rest =>
    let clean_source := pyStrip s
    if clean_source ≠ [] ∧ clean_source ∉ seen then
      clean_source :: validateFcAux (clean_source :: seen) rest
    else validateFcAux seen rest

/-- Embedding of the `validate_fact_check_sources` validator. -/
def validate_fact_check_sources (v : List (List Char)) : List (List Char) :=
  (validateFcAux [] v).take 10

/-- Pydantic construction of an `AnalysisResult`: field constraints in field
order (`ge=0` bounds, `max_items=10` on the source list — enforced by
pydantic v2 as a list-length constraint before the validator runs), then the
validators. -/
def mk' (text : Text) (classification : Classification) (source : AnalysisSource)
    (processing_time_ms cost_cents : ℤ) (fact_check_sources : List (List Char))
    (similar_texts_found : ℤ) (metadata : List (List Char × List Char)) :
    Except String AnalysisResult :=
  if processing_time_ms < 0 then .error "Input should be greater than or equal to 0"
  else if processing_time_ms < 0 then .error "Processing time cannot be negative"
  else if cost_cents < 0 then .error "Input should be greater than or equal to 0"
  else if cost_cents < 0 then .error "Cost cannot be negative"
  else if 10 < fact_check_sources.length then .error "List should have at most 10 items"
  else if similar_texts_found < 0 then .error "Input should be greater than or equal to 0"
  else .ok ⟨text, classification, source, processing_time_ms, cost_cents,
        validate_fact_check_sources fact_check_sources, similar_texts_found, metadata⟩

/-- Embedding of the `create_from_fact_check` factory. -/
def create_from_fact_check (text : Text) (classification : Classification)
    (processing_time_ms : ℤ) (fact_check_sources : List (List Char)) (cost_cents : ℤ) :
    Except String AnalysisResult :=
  mk' text classification .FACT_CHECK processing_time_ms cost_cents fact_check_sources 0 []

/-- Embedding of the `create_from_cache` factory with an explicit
`processing_time_ms` argument. -/
def create_from_cache_with_time (text : Text) (classification : Classification)
    (original_source : AnalysisSource) (processing_time_ms : ℤ) :
    Except String AnalysisResult :=
  mk' text classification .CACHE processing_time_ms 0 [] 0
    [("original_source".data, original_source.value)]

/-- Embedding of the `create_from_cache` factory at its default
`processing_time_ms=1`. -/
def create_from_cache (text : Text) (classification : Classification)
    (original_source : AnalysisSource) : Except String AnalysisResult :=
  create_from_cache_with_time text classification original_source 1

/-- Embedding of `AnalysisResult.get_performance_score`. -/
def get_performance_score (r : AnalysisResult) : ℚ :=
  let confidence_score := r.classification.confidence.value * 0.4
  let speed_score := min 1 ((5000 : ℚ) / ((max r.processing_time_ms 100 : ℤ) : ℚ)) * 0.3
  let cost_score := min 1 ((50 : ℚ) / ((max r.cost_cents 1 : ℤ) : ℚ)) * 0.2
  let source_score := r.source.get_reliability_score * 0.1
  confidence_score + speed_score + cost_score + source_score

end AnalysisResult

/-! ### Keyword extraction (`TextProcessor.clean_for_analysis`,
`TextProcessor.extract_keywords_basic`) -/

/-- Characters of the class `[.!?]` in `clean_for_analysis`. -/
def isSentencePunct (c : Char) : Bool := c == '.' || c == '!' || c == '?'

/-- Characters of the class `[,;:]` in `clean_for_analysis`. -/
def isPausePunct (c : Char) : Bool := c == ',' || c == ';' || c == ':'

/-- Characters kept by `re.sub(r'[^\w\s.,!?;:-]', '', s)`. -/
def isKeptForAnalysis (c : Char) : Bool :=
  isWordChar c || isPySpace c || isTermPunct c || c == '-'

/-- Collapse of every maximal run of `p`-characters to its last character.
`re.sub(r'(C){2,}', r'\1', s)` with a single-character class `C` rewrites
every run of length at least two to its last repetition (the group captures
the final one) and leaves single characters unchanged, which is the same
transformation. -/
def runKeepLast (p : Char → Bool) : List Char → List Char
  | [] => []
  | [c] => [c]
  | c :: d :: rest =>
    if p c && p d then runKeepLast p (d :: rest)
    else c :: runKeepLast p (d :: rest)

/-- Fuel-indexed scanner for `re.sub(r'\s+([.!?,:;])', r'\1', s)`: a maximal
whitespace run immediately followed by one of the punctuation characters is
dropped (the punctuation is kept); other whitespace runs are kept.  The fuel
starts at the list length, which the scanner never exhausts. -/
def dropWsBeforePunctAux : Nat → List Char → List Char
  | 0, l => l
  | _, [] => []
  | fuel + 1, c :: rest =>
    if isPySpace c then
      let run := rest.takeWhile isPySpace
      let after := rest.drop run.length
      match after with
      | d :: tail =>
        if isTermPunct d then d :: dropWsBeforePunctAux fuel tail
        else c :: (run ++ dropWsBeforePunctAux fuel after)
      | [] => c :: run
    else c :: dropWsBeforePunctAux fuel rest

/-- Fuel-indexed scanner for `re.sub(r'([.!?])\s*([A-Z])', r'\1 \2', s)`: a
sentence punctuation character, optional whitespace, and an ASCII capital
become the punctuation, one space, and the capital; scanning resumes after
the capital. -/
def spaceBeforeCapAux : Nat → List Char → List Char
  | 0, l => l
  | _, [] => []
  | fuel + 1, c :: rest =>
    if isSentencePunct c then
      let run := rest.takeWhile isPySpace
      let after := rest.drop run.length
      match after with
      | d :: tail =>
        if isUpperAlpha d then c :: ' ' :: d :: spaceBeforeCapAux fuel tail
        else c :: spaceBeforeCapAux fuel rest
      | [] => c :: spaceBeforeCapAux fuel rest
    else c :: spaceBeforeCapAux fuel rest

namespace TextProcessor

/-- Embedding of `TextProcessor.clean_for_analysis`, stage by stage in the
source's order. -/
def clean_for_analysis (text : List Char) : List Char :=
  if text = [] then []
  else
    let cleaned := normalizeCore text false
    let c2 := cleaned.filter isKeptForAnalysis
    let c3 := runKeepLast isSentencePunct c2
    let c4 := runKeepLast isPausePunct c3
    let c5 := dropWsBeforePunctAux c4.length c4
    let c6 := spaceBeforeCapAux c5.length c5
    pyStrip (collapseWs c6)

/-- Stop-word list of `extract_keywords_basic`, transcribed from the source
(including the encoding-damaged `'nÃ£o'` literal; the duplicated entries of
the Python set literal are harmless for membership). -/
def stop_words : List (List Char) :=
  ["a", "an", "and", "are", "as", "at", "be", "by", "for", "from",
   "has", "he", "in", "is", "it", "its", "of", "on", "that", "the",
   "to", "was", "will", "with", "this", "these", "those", "they",
   "o", "a", "e", "os", "as", "um", "uma", "de", "do", "da", "dos", "das",
   "em", "no", "na", "nos", "nas", "para", "por", "com", "sem", "que",
   "se", "nÃ£o", "mais", "muito"].map String.data

/-- Embedding of `re.sub(r'[^\w]', '', word)`. -/
def cleanWord (w : List Char) : List Char := w.filter isWordChar

/-- Qualification test of the keyword loop: cleaned length at least 3 and
not a stop word. -/
def qualifies (w : List Char) : Bool := 3 ≤ w.length && !(stop_words.contains w)

/-- One step of the frequency-counting loop
`word_freq[w] = word_freq.get(w, 0) + 1`: a present key is incremented in
place, a new key is appended (Python dicts preserve insertion order). -/
def bump : List (List Char × Nat) → List Char → List (List Char × Nat)
  | [], w => [(w, 1)]
  | (k, n) :: rest, w => if k = w then (k, n + 1) :: rest else (k, n) :: bump rest w

/-- Frequency table of a word sequence, in first-occurrence order. -/
def wordFreq (ws : List (List Char)) : List (List Char × Nat) := ws.foldl bump []

/-- Comparison used for `sorted(word_freq.items(), key=lambda x: x[1],
reverse=True)`: descending by count; the sort is stable, as in Python. -/
def sortLe (a b : List Char × Nat) : Bool := Nat.ble b.2 a.2

/-- Sequence of cleaned words that pass the keyword loop's length and
stop-word tests, in text order: the sequence over which `word_freq` counts
frequencies. -/
def qualifyingWords (text : List Char) : List (List Char) :=
  ((splitWs ((clean_for_analysis text).map toLowerPy)).map cleanWord).filter qualifies

/-- Embedding of `TextProcessor.extract_keywords_basic`. -/
def extract_keywords_basic (text : List Char) (max_keywords : Nat) : List (List Char) :=
  if text = [] then []
  else
    let sorted_words := (wordFreq (qualifyingWords text)).mergeSort sortLe
    (sorted_words.take max_keywords).map Prod.fst

end TextProcessor

/-- Index of the first occurrence of `w` in `l` (the length of `l` when
absent); used to state first-seen ordering. -/
def firstIdx : List (List Char) → List Char → Nat
  | [], _ => 0
  | u :: rest, w => if u = w then 0 else firstIdx rest w + 1

/-- Hash preimage of the `Text.create` fingerprint pipeline: the stored
`TextHash` is the SHA-256 of the UTF-8 bytes of this string. -/
def Text.fingerprintPreimage (t : List Char) : List Char :=
  TextHash.normalizeText (Text._normalize_content (pyStrip t))

/-! ### Concrete example values used by witnesses -/

/-- Example `Text` entity for the text "hello world" (the value produced by
`Text.create "hello world"`). -/
def egText : Text :=
  ⟨"hello world".data, "hello world".data,
   ⟨sha256hex (utf8Encode "hello world".data)⟩, "pt".data, 2, 11, [], none⟩

/-- Example `Classification` with confidence 0.9. -/
def egClassification : Classification := ⟨.RELIABLE, ⟨0.9⟩, none, []⟩

/-- Example `Text` entity for the text "hello world!!" (the value produced by
`Text.create "hello world!!"`). -/
def egTextBang : Text :=
  ⟨"hello world!!".data, "hello world!!".data,
   ⟨sha256hex (utf8Encode "hello world!!".data)⟩, "pt".data, 2, 13, [], none⟩

/-- Example `Text` entity for the text " Hello  World " (the value produced
by `Text.create " Hello  World "`), whose content differs from `egText`'s
only by whitespace and letter case. -/
def egTextWs : Text :=
  ⟨"Hello  World".data, "Hello World".data,
   ⟨sha256hex (utf8Encode "hello world".data)⟩, "pt".data, 2, 12, [], none⟩

/-! ## Theorems -/

-- FIPS 180-4 test vector, checking the SHA-256 embedding itself.
theorem sha256hex_abc :
    sha256hex [97, 98, 99] =
      "ba7816bf8f01cfea414140de5dae2223b00361a396177a9cb410ff61f20015ad".data := by
  decide

/-! ### Helper lemmas about `pyStrip` and hex digests -/

theorem dropWhile_idem (p : Char → Bool) (l : List Char) :
    (l.dropWhile p).dropWhile p = l.dropWhile p := by
  cases h : l.dropWhile p with
  | nil => rfl
  | cons c cs =>
    have hc : p c = false := by
      have h2 := List.head?_dropWhile_not p l
      rw [h] at h2
      simpa using h2
    simp [List.dropWhile_cons, hc]

theorem ltrim_pyStrip (l : List Char) :
    (pyStrip l).dropWhile isPySpace = pyStrip l := by
  unfold pyStrip
  obtain ⟨t, ht⟩ := List.dropWhile_suffix (l := (l.dropWhile isPySpace).reverse) isPySpace
  set u := ((l.dropWhile isPySpace).reverse).dropWhile isPySpace with hu
  cases hz : u.reverse with
  | nil => simp [hz]
  | cons c cs =>
    have ha : l.dropWhile isPySpace = c :: (cs ++ t.reverse) := by
      have : (l.dropWhile isPySpace).reverse.reverse = (t ++ u).reverse := by rw [ht]
      simpa [hz] using this
    have hc : isPySpace c = false := by
      have h2 := List.head?_dropWhile_not isPySpace l
      rw [ha] at h2
      simpa using h2
    simp [List.dropWhile_cons, hc]

theorem pyStrip_idem (l : List Char) : pyStrip (pyStrip l) = pyStrip l := by
  show (((pyStrip l).dropWhile isPySpace).reverse.dropWhile isPySpace).reverse = pyStrip l
  rw [ltrim_pyStrip]
  have h2 : (pyStrip l).reverse.dropWhile isPySpace = (pyStrip l).reverse := by
    have hrr : (pyStrip l).reverse = ((l.dropWhile isPySpace).reverse).dropWhile isPySpace := by
      unfold pyStrip
      rw [List.reverse_reverse]
    rw [hrr]
    exact dropWhile_idem _ _
  rw [h2, List.reverse_reverse]

theorem pyStrip_of_no_ws (l : List Char) (h : ∀ c ∈ l, isPySpace c = false) :
    pyStrip l = l := by
  unfold pyStrip
  have h1 : l.dropWhile isPySpace = l := by
    cases l with
    | nil => rfl
    | cons c cs => simp [h c (by simp)]
  rw [h1]
  have h2 : l.reverse.dropWhile isPySpace = l.reverse := by
    cases hr : l.reverse with
    | nil => rfl
    | cons c cs =>
      have : c ∈ l := by
        have : c ∈ l.reverse := by simp [hr]
        simpa using this
      simp [h c this]
  rw [h2, List.reverse_reverse]

theorem hexDigit_props : ∀ n, n < 16 →
    isHexLowerChar (hexDigit n) = true ∧ isPySpace (hexDigit n) = false := by decide

theorem wordToHex_props (x : Nat) :
    (wordToHex x).length = 8 ∧
      ∀ c ∈ wordToHex x, isHexLowerChar c = true ∧ isPySpace c = false := by
  refine ⟨rfl, ?_⟩
  intro c hc
  simp only [wordToHex, List.mem_cons, List.not_mem_nil, or_false] at hc
  rcases hc with h | h | h | h | h | h | h | h <;>
    · subst h
      exact hexDigit_props _ (Nat.mod_lt _ (by norm_num))

theorem sha256hex_length (m : List Nat) : (sha256hex m).length = 64 := by
  simp [sha256hex, wordToHex]

theorem sha256hex_mem (m : List Nat) :
    ∀ c ∈ sha256hex m, isHexLowerChar c = true ∧ isPySpace c = false := by
  intro c hc
  simp only [sha256hex, List.mem_append] at hc
  rcases hc with ((((((h | h) | h) | h) | h) | h) | h) | h <;>
    exact (wordToHex_props _).2 _ h

theorem toLowerPy_of_hex (c : Char) (h : isHexLowerChar c = true) : toLowerPy c = c := by
  simp only [isHexLowerChar, Bool.or_eq_true, Bool.and_eq_true, decide_eq_true_eq] at h
  simp only [toLowerPy]
  split_ifs with h1 h2
  · simp only [Bool.and_eq_true, decide_eq_true_eq] at h1; omega
  · simp only [Bool.and_eq_true, decide_eq_true_eq, ne_eq] at h2
    omega
  · rfl

theorem map_toLowerPy_of_hex (l : List Char) (h : ∀ c ∈ l, isHexLowerChar c = true) :
    l.map toLowerPy = l := by
  induction l with
  | nil => rfl
  | cons c cs ih =>
    simp only [List.map_cons]
    rw [toLowerPy_of_hex c (h c (by simp)), ih (fun d hd => h d (by simp [hd]))]

theorem TextHash.mk'_sha256 (m : List Nat) :
    TextHash.mk' (sha256hex m) = .ok ⟨sha256hex m⟩ := by
  simp only [TextHash.mk']
  rw [pyStrip_of_no_ws _ (fun c hc => (sha256hex_mem m c hc).2)]
  have hall : (sha256hex m).all isHexLowerChar = true :=
    List.all_eq_true.mpr (fun c hc => (sha256hex_mem m c hc).1)
  have hlen := sha256hex_length m
  rw [map_toLowerPy_of_hex _ (fun c hc => (sha256hex_mem m c hc).1)]
  simp [hall, hlen]

/-! ### Helper lemmas about round-half-to-even -/

theorem roundHalfEven_nonneg (q : ℚ) (h : 0 ≤ q) : 0 ≤ roundHalfEven q := by
  have hf : (0 : ℤ) ≤ ⌊q⌋ := Int.floor_nonneg.mpr h
  simp only [roundHalfEven]
  split_ifs <;> omega

theorem roundHalfEven_le (q : ℚ) (N : ℤ) (h : q ≤ (N : ℚ)) : roundHalfEven q ≤ N := by
  have hfl : ⌊q⌋ ≤ N := by
    have := Int.floor_mono h
    rwa [Int.floor_intCast] at this
  have hfle : (⌊q⌋ : ℚ) ≤ q := Int.floor_le q
  simp only [roundHalfEven]
  split_ifs with h1 h2 h3
  · exact hfl
  · have : (⌊q⌋ : ℚ) < q := by linarith
    have : ⌊q⌋ < N := by
      have hq : (⌊q⌋ : ℚ) < (N : ℚ) := lt_of_lt_of_le this h
      exact_mod_cast hq
    omega
  · exact hfl
  · have : (⌊q⌋ : ℚ) < q := by
      push_neg at h1
      linarith
    have : ⌊q⌋ < N := by
      have hq : (⌊q⌋ : ℚ) < (N : ℚ) := lt_of_lt_of_le this h
      exact_mod_cast hq
    omega

theorem roundHalfEven_intCast (k : ℤ) : roundHalfEven (k : ℚ) = k := by
  simp only [roundHalfEven, Int.floor_intCast]
  norm_num

theorem roundTo4_nonneg (v : ℚ) (h : 0 ≤ v) : 0 ≤ roundTo4 v := by
  unfold roundTo4
  have : (0 : ℤ) ≤ roundHalfEven (v * 10000) :=
    roundHalfEven_nonneg _ (by positivity)
  positivity

theorem roundTo4_le_one (v : ℚ) (h : v ≤ 1) : roundTo4 v ≤ 1 := by
  unfold roundTo4
  have hb : roundHalfEven (v * 10000) ≤ (10000 : ℤ) := by
    apply roundHalfEven_le
    push_cast
    linarith
  rw [div_le_one (by norm_num)]
  exact_mod_cast hb

theorem roundTo4_idem (v : ℚ) : roundTo4 (roundTo4 v) = roundTo4 v := by
  conv_lhs => unfold roundTo4
  unfold roundTo4
  rw [div_mul_cancel₀ _ (by norm_num : (10000 : ℚ) ≠ 0), roundHalfEven_intCast]

/-! ### Claims C1 and C4: confidence clamping, rounding and classification
thresholds -/

section

attribute [local semireducible] Rat.add Rat.mul Rat.sub Rat.inv Rat.ofScientific

/-- C1, counterexample.  The claim asserts that classifying
`ConfidenceScore.of(0.79999)` gives INCONCLUSIVE (and similarly 0.39999 →
UNFOUNDED, 0.19999 → FAKE).  In the code, `validate_range` stores
`round(v, 4)`, so 0.79999 is stored as 0.8 and classifies as RELIABLE
(0.39999 as 0.4 → INCONCLUSIVE, 0.19999 as 0.2 → UNFOUNDED). -/
theorem from_confidence_rounding_counterexample :
    (ConfidenceScore.of 0.79999).map ClassificationType.from_confidence = .ok .RELIABLE ∧
    (ConfidenceScore.of 0.79999).map ClassificationType.from_confidence ≠ .ok .INCONCLUSIVE ∧
    (ConfidenceScore.of 0.39999).map ClassificationType.from_confidence = .ok .INCONCLUSIVE ∧
    (ConfidenceScore.of 0.19999).map ClassificationType.from_confidence = .ok .UNFOUNDED := by
  refine ⟨by decide, by decide, by decide, by decide⟩

/-- C1, amended.  `ClassificationType.from_confidence` maps every stored
`ConfidenceScore` with inclusive lower bounds — `value ≥ 0.8 → RELIABLE`,
`0.4 ≤ value < 0.8 → INCONCLUSIVE`, `0.2 ≤ value < 0.4 → UNFOUNDED`,
`value < 0.2 → FAKE` — totally on `[0, 1]`; the boundary inputs 0.8, 0.4 and
0.2 classify as RELIABLE, INCONCLUSIVE and UNFOUNDED, and the strictly-below
boundary inputs must be representable at 4 decimals (0.7999, 0.3999, 0.1999)
because construction rounds the stored value to 4 decimal places. -/
theorem from_confidence_thresholds (v : ℚ) (c : ConfidenceScore)
    (hv : ConfidenceScore.of v = .ok c) :
    ((0.8 : ℚ) ≤ c.value → ClassificationType.from_confidence c = .RELIABLE) ∧
    ((0.4 : ℚ) ≤ c.value → c.value < 0.8 → ClassificationType.from_confidence c = .INCONCLUSIVE) ∧
    ((0.2 : ℚ) ≤ c.value → c.value < 0.4 → ClassificationType.from_confidence c = .UNFOUNDED) ∧
    (c.value < (0.2 : ℚ) → ClassificationType.from_confidence c = .FAKE) ∧
    (ConfidenceScore.of 0.8).map ClassificationType.from_confidence = .ok .RELIABLE ∧
    (ConfidenceScore.of 0.7999).map ClassificationType.from_confidence = .ok .INCONCLUSIVE ∧
    (ConfidenceScore.of 0.4).map ClassificationType.from_confidence = .ok .INCONCLUSIVE ∧
    (ConfidenceScore.of 0.3999).map ClassificationType.from_confidence = .ok .UNFOUNDED ∧
    (ConfidenceScore.of 0.2).map ClassificationType.from_confidence = .ok .UNFOUNDED ∧
    (ConfidenceScore.of 0.1999).map ClassificationType.from_confidence = .ok .FAKE := by
  refine ⟨?_, ?_, ?_, ?_, by decide, by decide, by decide, by decide, by decide, by decide⟩
  · intro h1
    simp only [ClassificationType.from_confidence]
    split_ifs with g1 <;> first | rfl | linarith
  · intro h1 h2
    simp only [ClassificationType.from_confidence]
    split_ifs with g1 g2 <;> first | rfl | linarith
  · intro h1 h2
    simp only [ClassificationType.from_confidence]
    split_ifs with g1 g2 g3 <;> first | rfl | linarith
  · intro h1
    simp only [ClassificationType.from_confidence]
    split_ifs with g1 g2 g3 <;> first | rfl | linarith

/-- C1, witness for the amended theorem at the concrete input 0.5. -/
theorem from_confidence_thresholds_witness :
    ConfidenceScore.of 0.5 = .ok ⟨0.5⟩ ∧
      ClassificationType.from_confidence ⟨0.5⟩ = .INCONCLUSIVE :=
  ⟨by decide, (from_confidence_thresholds 0.5 ⟨0.5⟩ (by decide)).2.1 (by decide) (by decide)⟩

/-- C4 (confirmed).  `ConfidenceScore` construction fails with a range error
for every value outside `[0, 1]`; inside the range it succeeds, stores
`round(v, 4)`, and the stored value is within `[0, 1]` and round-trips to 4
decimal places. -/
theorem confidence_of_clamp (v : ℚ) :
    (v < 0 ∨ 1 < v → ConfidenceScore.of v = .error "Input should be in the range 0 to 1") ∧
    (0 ≤ v → v ≤ 1 →
      ConfidenceScore.of v = .ok ⟨roundTo4 v⟩ ∧
      0 ≤ roundTo4 v ∧ roundTo4 v ≤ 1 ∧ roundTo4 (roundTo4 v) = roundTo4 v) := by
  constructor
  · intro h
    simp only [ConfidenceScore.of]
    rw [if_pos]
    intro ⟨h0, h1⟩
    rcases h with h | h <;> linarith
  · intro h0 h1
    refine ⟨?_, roundTo4_nonneg v h0, roundTo4_le_one v h1, roundTo4_idem v⟩
    simp only [ConfidenceScore.of]
    rw [if_neg (by simp [h0, h1]), if_neg (by simp [h0, h1])]

/-- C4, witness at the concrete inputs 2 (rejected) and 0.5 (accepted). -/
theorem confidence_of_clamp_witness :
    ConfidenceScore.of 2 = .error "Input should be in the range 0 to 1" ∧
      (ConfidenceScore.of 0.5 = .ok ⟨roundTo4 0.5⟩ ∧
        0 ≤ roundTo4 0.5 ∧ roundTo4 0.5 ≤ 1 ∧
        roundTo4 (roundTo4 0.5) = roundTo4 0.5) :=
  ⟨(confidence_of_clamp 2).1 (Or.inr (by decide)),
   (confidence_of_clamp 0.5).2 (by decide) (by decide)⟩

end

/-! ### Claim C5: the performance score formula and its bounds -/

section

attribute [local semireducible] Rat.add Rat.mul Rat.sub Rat.inv Rat.ofScientific

/-- C5 (confirmed).  For every `AnalysisResult` with confidence in `[0, 1]`
and non-negative processing time and cost, `get_performance_score` equals
`0.4·confidence + 0.3·min(1, 5000/max(t, 100)) + 0.2·min(1, 50/max(c, 1)) +
0.1·sourceReliability`, the reliability table is FACT_CHECK 0.95,
VECTOR_SEARCH 0.85, LLM 0.75, HYBRID 0.90, CACHE 1.0, MANUAL 1.0, and the
score always lies in `[0, 1]`. -/
theorem performance_score_bounds (r : AnalysisResult)
    (h0 : 0 ≤ r.classification.confidence.value)
    (h1 : r.classification.confidence.value ≤ 1)
    (ht : 0 ≤ r.processing_time_ms) (hc : 0 ≤ r.cost_cents) :
    r.get_performance_score =
      0.4 * r.classification.confidence.value +
      0.3 * min 1 ((5000 : ℚ) / ((max r.processing_time_ms 100 : ℤ) : ℚ)) +
      0.2 * min 1 ((50 : ℚ) / ((max r.cost_cents 1 : ℤ) : ℚ)) +
      0.1 * r.source.get_reliability_score ∧
    0 ≤ r.get_performance_score ∧ r.get_performance_score ≤ 1 ∧
    AnalysisSource.FACT_CHECK.get_reliability_score = 0.95 ∧
    AnalysisSource.VECTOR_SEARCH.get_reliability_score = 0.85 ∧
    AnalysisSource.LLM.get_reliability_score = 0.75 ∧
    AnalysisSource.HYBRID.get_reliability_score = 0.9 ∧
    AnalysisSource.CACHE.get_reliability_score = 1 ∧
    AnalysisSource.MANUAL.get_reliability_score = 1 := by
  have hM : (100 : ℚ) ≤ ((max r.processing_time_ms 100 : ℤ) : ℚ) := by
    exact_mod_cast le_max_right r.processing_time_ms 100
  have hMpos : (0 : ℚ) < ((max r.processing_time_ms 100 : ℤ) : ℚ) := by linarith
  have hC : (1 : ℚ) ≤ ((max r.cost_cents 1 : ℤ) : ℚ) := by
    exact_mod_cast le_max_right r.cost_cents 1
  have hCpos : (0 : ℚ) < ((max r.cost_cents 1 : ℤ) : ℚ) := by linarith
  have hsp1 : min 1 ((5000 : ℚ) / ((max r.processing_time_ms 100 : ℤ) : ℚ)) ≤ 1 :=
    min_le_left _ _
  have hsp0 : 0 ≤ min 1 ((5000 : ℚ) / ((max r.processing_time_ms 100 : ℤ) : ℚ)) :=
    le_min (by norm_num) (div_nonneg (by norm_num) hMpos.le)
  have hco1 : min 1 ((50 : ℚ) / ((max r.cost_cents 1 : ℤ) : ℚ)) ≤ 1 := min_le_left _ _
  have hco0 : 0 ≤ min 1 ((50 : ℚ) / ((max r.cost_cents 1 : ℤ) : ℚ)) :=
    le_min (by norm_num) (div_nonneg (by norm_num) hCpos.le)
  have hrel : (0.75 : ℚ) ≤ r.source.get_reliability_score ∧
      r.source.get_reliability_score ≤ 1 := by
    cases r.source <;> constructor <;> norm_num [AnalysisSource.get_reliability_score]
  have hfor : r.get_performance_score =
      0.4 * r.classification.confidence.value +
      0.3 * min 1 ((5000 : ℚ) / ((max r.processing_time_ms 100 : ℤ) : ℚ)) +
      0.2 * min 1 ((50 : ℚ) / ((max r.cost_cents 1 : ℤ) : ℚ)) +
      0.1 * r.source.get_reliability_score := by
    simp only [AnalysisResult.get_performance_score]
    ring
  refine ⟨hfor, ?_, ?_, by norm_num [AnalysisSource.get_reliability_score],
    by norm_num [AnalysisSource.get_reliability_score],
    by norm_num [AnalysisSource.get_reliability_score],
    by norm_num [AnalysisSource.get_reliability_score],
    by norm_num [AnalysisSource.get_reliability_score],
    by norm_num [AnalysisSource.get_reliability_score]⟩
  · rw [hfor]
    have := hrel.1
    linarith
  · rw [hfor]
    have := hrel.2
    linarith

/-- C5, witness at a concrete result (confidence 0.9, 1000 ms, 5 cents,
FACT_CHECK source). -/
theorem performance_score_bounds_witness :
    0 ≤ (AnalysisResult.mk egText egClassification .FACT_CHECK 1000 5 [] 0 []).get_performance_score ∧
    (AnalysisResult.mk egText egClassification .FACT_CHECK 1000 5 [] 0 []).get_performance_score ≤ 1 :=
  ⟨(performance_score_bounds ⟨egText, egClassification, .FACT_CHECK, 1000, 5, [], 0, []⟩
      (by decide) (by decide) (by decide) (by decide)).2.1,
   (performance_score_bounds ⟨egText, egClassification, .FACT_CHECK, 1000, 5, [], 0, []⟩
      (by decide) (by decide) (by decide) (by decide)).2.2.1⟩

/-- C6 (confirmed).  Every `AnalysisResult` built by `create_from_cache` has
source CACHE, cost 0, processing time 1 when no explicit time is supplied,
and records the original source in its metadata under `original_source`
(also with an explicit time, apart from the fixed 1 ms). -/
theorem create_from_cache_spec (text : Text) (cls : Classification)
    (os : AnalysisSource) (r r' : AnalysisResult) (pt : ℤ) :
    (AnalysisResult.create_from_cache text cls os = .ok r →
      r.source = .CACHE ∧ r.cost_cents = 0 ∧ r.processing_time_ms = 1 ∧
      r.metadata = [("original_source".data, os.value)]) ∧
    (AnalysisResult.create_from_cache_with_time text cls os pt = .ok r' →
      r'.source = .CACHE ∧ r'.cost_cents = 0 ∧
      r'.metadata = [("original_source".data, os.value)]) := by
  constructor
  · intro h
    simp only [AnalysisResult.create_from_cache,
      AnalysisResult.create_from_cache_with_time, AnalysisResult.mk'] at h
    norm_num at h
    rw [← h]
    exact ⟨rfl, rfl, rfl, rfl⟩
  · intro h
    simp only [AnalysisResult.create_from_cache_with_time, AnalysisResult.mk'] at h
    split_ifs at h with h1 h2 h3
    norm_num at h
    rw [← h]
    exact ⟨rfl, rfl, rfl⟩

/-- C6, witness at a concrete cached result for an original LLM analysis. -/
theorem create_from_cache_spec_witness :
    AnalysisResult.create_from_cache egText egClassification .LLM =
      .ok (AnalysisResult.mk egText egClassification .CACHE 1 0 [] 0
        [("original_source".data, "llm".data)]) ∧
    (AnalysisResult.mk egText egClassification .CACHE 1 0 [] 0
        [("original_source".data, "llm".data)]).source = .CACHE ∧
    (AnalysisResult.mk egText egClassification .CACHE 1 0 [] 0
        [("original_source".data, "llm".data)]).cost_cents = 0 ∧
    (AnalysisResult.mk egText egClassification .CACHE 1 0 [] 0
        [("original_source".data, "llm".data)]).processing_time_ms = 1 ∧
    (AnalysisResult.mk egText egClassification .CACHE 1 0 [] 0
        [("original_source".data, "llm".data)]).metadata =
      [("original_source".data, AnalysisSource.LLM.value)] :=
  ⟨by decide,
   ((create_from_cache_spec egText egClassification .LLM
      (AnalysisResult.mk egText egClassification .CACHE 1 0 [] 0
        [("original_source".data, "llm".data)])
      (AnalysisResult.mk egText egClassification .CACHE 1 0 [] 0
        [("original_source".data, "llm".data)]) 1).1 (by decide)).1,
   ((create_from_cache_spec egText egClassification .LLM
      (AnalysisResult.mk egText egClassification .CACHE 1 0 [] 0
        [("original_source".data, "llm".data)])
      (AnalysisResult.mk egText egClassification .CACHE 1 0 [] 0
        [("original_source".data, "llm".data)]) 1).1 (by decide)).2.1,
   ((create_from_cache_spec egText egClassification .LLM
      (AnalysisResult.mk egText egClassification .CACHE 1 0 [] 0
        [("original_source".data, "llm".data)])
      (AnalysisResult.mk egText egClassification .CACHE 1 0 [] 0
        [("original_source".data, "llm".data)]) 1).1 (by decide)).2.2.1,
   ((create_from_cache_spec egText egClassification .LLM
      (AnalysisResult.mk egText egClassification .CACHE 1 0 [] 0
        [("original_source".data, "llm".data)])
      (AnalysisResult.mk egText egClassification .CACHE 1 0 [] 0
        [("original_source".data, "llm".data)]) 1).1 (by decide)).2.2.2⟩

end

/-! ### Claim C7: evidence/fact-check source list hygiene -/

theorem dedupFirstAux_sublist {α : Type} [DecidableEq α] (seen l : List α) :
    List.Sublist (dedupFirstAux seen l) l := by
  induction l generalizing seen with
  | nil => exact List.nil_sublist _
  | cons x rest ih =>
    simp only [dedupFirstAux]
    split_ifs with hx
    · exact (ih seen).cons x
    · exact (ih (x :: seen)).cons₂ x

theorem dedupFirstAux_not_mem_seen {α : Type} [DecidableEq α] (seen l : List α)
    (a : α) (ha : a ∈ dedupFirstAux seen l) : a ∉ seen := by
  induction l generalizing seen with
  | nil => simp [dedupFirstAux] at ha
  | cons x rest ih =>
    simp only [dedupFirstAux] at ha
    split_ifs at ha with hx
    · exact ih seen ha
    · rcases List.mem_cons.mp ha with h | h
      · subst h; exact hx
      · exact fun hs => ih (x :: seen) h (List.mem_cons_of_mem x hs)

theorem dedupFirstAux_nodup {α : Type} [DecidableEq α] (seen l : List α) :
    (dedupFirstAux seen l).Nodup := by
  induction l generalizing seen with
  | nil => exact List.nodup_nil
  | cons x rest ih =>
    simp only [dedupFirstAux]
    split_ifs with hx
    · exact ih seen
    · refine List.nodup_cons.mpr ⟨?_, ih (x :: seen)⟩
      intro hmem
      exact dedupFirstAux_not_mem_seen (x :: seen) rest x hmem (by simp)

theorem dedupFirstAux_complete {α : Type} [DecidableEq α] (seen l : List α)
    (a : α) (ha : a ∈ l) : a ∈ seen ∨ a ∈ dedupFirstAux seen l := by
  induction l generalizing seen with
  | nil => simp at ha
  | cons x rest ih =>
    simp only [dedupFirstAux]
    rcases List.mem_cons.mp ha with h | h
    · subst h
      split_ifs with hx
      · exact Or.inl hx
      · exact Or.inr (by simp)
    · split_ifs with hx
      · exact ih seen h
      · rcases ih (x :: seen) h with hs | hd
        · rcases List.mem_cons.mp hs with h1 | h1
          · exact Or.inr (h1 ▸ by simp)
          · exact Or.inl h1
        · exact Or.inr (List.mem_cons_of_mem x hd)

theorem validateFcAux_eq_dedup (seen l : List (List Char)) :
    AnalysisResult.validateFcAux seen l =
      dedupFirstAux seen ((l.filter (fun s => pyStrip s ≠ [])).map pyStrip) := by
  induction l generalizing seen with
  | nil => rfl
  | cons s rest ih =>
    simp only [AnalysisResult.validateFcAux, List.filter_cons]
    by_cases hs : pyStrip s = []
    · have h1 : ¬ (pyStrip s ≠ [] ∧ pyStrip s ∉ seen) := fun hcon => hcon.1 hs
      have h2 : ¬ (decide (pyStrip s ≠ []) = true) := by simp [hs]
      rw [if_neg h1, if_neg h2]
      exact ih seen
    · have h2 : decide (pyStrip s ≠ []) = true := by simp [hs]
      by_cases hmem : pyStrip s ∈ seen
      · have h1 : ¬ (pyStrip s ≠ [] ∧ pyStrip s ∉ seen) := fun hcon => hcon.2 hmem
        rw [if_neg h1, if_pos h2]
        simp only [List.map_cons, dedupFirstAux]
        rw [if_pos hmem]
        exact ih seen
      · have h1 : pyStrip s ≠ [] ∧ pyStrip s ∉ seen := ⟨hs, hmem⟩
        rw [if_pos h1, if_pos h2]
        simp only [List.map_cons, dedupFirstAux]
        rw [if_neg hmem]
        rw [ih (pyStrip s :: seen)]

section

attribute [local semireducible] Rat.add Rat.mul Rat.sub Rat.inv Rat.ofScientific

/-- C7, counterexample.  The claim asserts that lists of more than 10 raw
entries are cleaned down to at most 10 (in particular that
`["a","a","","b"]` repeated three times reduces to `["a","b"]`).  In the
code, `max_items=10` is enforced by pydantic before the cleaning validator
runs, so a 12-entry list makes construction of either entity fail; only the
unreachable-for-long-lists validator itself would produce `["a","b"]`. -/
theorem evidence_overflow_counterexample :
    Classification.mk' .RELIABLE ⟨0.9⟩ none
        (["a", "a", "", "b", "a", "a", "", "b", "a", "a", "", "b"].map String.data) =
      .error "List should have at most 10 items" ∧
    AnalysisResult.mk' egText egClassification .FACT_CHECK 10 0
        (["a", "a", "", "b", "a", "a", "", "b", "a", "a", "", "b"].map String.data) 0 [] =
      .error "List should have at most 10 items" ∧
    Classification.validate_evidence_sources
        (["a", "a", "", "b", "a", "a", "", "b", "a", "a", "", "b"].map String.data) =
      ["a", "b"].map String.data := by
  refine ⟨by decide, by decide, by decide⟩

end

/-- C7, amended.  Input lists of more than 10 entries are rejected by the
`max_items` constraint before any cleaning; for lists of at most 10 entries
the constructed `Classification` stores the cleaned list, in which blanks
are dropped, every entry is whitespace-stripped, non-empty and unique,
entries appear in input (first-seen) order, and nothing is lost; the
`AnalysisResult` fact-check validator computes exactly the same cleaning. -/
theorem evidence_hygiene (v : List (List Char)) (ty : ClassificationType)
    (conf : ConfidenceScore) :
    (10 < v.length → Classification.mk' ty conf none v =
      .error "List should have at most 10 items") ∧
    (v.length ≤ 10 → Classification.mk' ty conf none v =
      .ok ⟨ty, conf, none, Classification.validate_evidence_sources v⟩) ∧
    (Classification.validate_evidence_sources v).length ≤ 10 ∧
    (Classification.validate_evidence_sources v).Nodup ∧
    (∀ s ∈ Classification.validate_evidence_sources v, pyStrip s = s ∧ s ≠ []) ∧
    List.Sublist (Classification.validate_evidence_sources v)
      ((v.filter (fun s => pyStrip s ≠ [])).map pyStrip) ∧
    (v.length ≤ 10 → ∀ s ∈ (v.filter (fun s => pyStrip s ≠ [])).map pyStrip,
      s ∈ Classification.validate_evidence_sources v) ∧
    AnalysisResult.validate_fact_check_sources v =
      Classification.validate_evidence_sources v := by
  have hsub : List.Sublist (Classification.validate_evidence_sources v)
      ((v.filter (fun s => pyStrip s ≠ [])).map pyStrip) := by
    simp only [Classification.validate_evidence_sources, dedupFirst]
    exact (List.take_sublist _ _).trans (dedupFirstAux_sublist _ _)
  refine ⟨?_, ?_, ?_, ?_, ?_, hsub, ?_, ?_⟩
  · intro h
    have hr : ¬ (Classification.reasoningFieldViolation none = true) := by
      simp [Classification.reasoningFieldViolation]
    simp only [Classification.mk']
    rw [if_neg hr, if_pos h]
  · intro h
    have hr : ¬ (Classification.reasoningFieldViolation none = true) := by
      simp [Classification.reasoningFieldViolation]
    simp only [Classification.mk']
    rw [if_neg hr, if_neg (by omega : ¬ 10 < v.length)]
    rfl
  · simp only [Classification.validate_evidence_sources]
    exact List.length_take_le _ _
  · exact (dedupFirstAux_nodup _ _).sublist (List.take_sublist _ _)
  · intro s hs
    have hmem : s ∈ (v.filter (fun s => pyStrip s ≠ [])).map pyStrip := hsub.subset hs
    obtain ⟨t, htf, hts⟩ := List.mem_map.mp hmem
    have htne : pyStrip t ≠ [] := by
      have := List.of_mem_filter htf
      simpa using this
    exact ⟨by rw [← hts, pyStrip_idem], hts ▸ htne⟩
  · intro hlen s hs
    have hdlen : (dedupFirst ((v.filter (fun s => pyStrip s ≠ [])).map pyStrip)).length ≤ 10 := by
      have h1 := (dedupFirstAux_sublist ([] : List (List Char))
        ((v.filter (fun s => pyStrip s ≠ [])).map pyStrip)).length_le
      have h2 : ((v.filter (fun s => pyStrip s ≠ [])).map pyStrip).length ≤ v.length := by
        rw [List.length_map]
        exact List.length_filter_le _ _
      simp only [dedupFirst]
      omega
    have hout : Classification.validate_evidence_sources v =
        dedupFirst ((v.filter (fun s => pyStrip s ≠ [])).map pyStrip) := by
      simp only [Classification.validate_evidence_sources]
      exact List.take_of_length_le hdlen
    rw [hout]
    rcases dedupFirstAux_complete [] _ s hs with h | h
    · simp at h
    · exact h
  · simp only [AnalysisResult.validate_fact_check_sources,
      Classification.validate_evidence_sources, dedupFirst]
    rw [validateFcAux_eq_dedup]

/-- C7, witness for the amended theorem at the 4-entry example list. -/
theorem evidence_hygiene_witness :
    Classification.mk' .RELIABLE ⟨(9 : ℚ)/10⟩ none (["a", "a", "", "b"].map String.data) =
      .ok ⟨.RELIABLE, ⟨(9 : ℚ)/10⟩, none,
        Classification.validate_evidence_sources (["a", "a", "", "b"].map String.data)⟩ ∧
    (Classification.validate_evidence_sources (["a", "a", "", "b"].map String.data)).Nodup :=
  ⟨(evidence_hygiene (["a", "a", "", "b"].map String.data) .RELIABLE ⟨(9 : ℚ)/10⟩).2.1
      (by decide),
   (evidence_hygiene (["a", "a", "", "b"].map String.data) .RELIABLE ⟨(9 : ℚ)/10⟩).2.2.2.1⟩

/-! ### Helper lemmas about `Text.mk'` and `Text.create` -/

theorem Text.mk'_ok_fields (oc nc : List Char) (th : TextHash)
    (lang : Option (List Char)) (wc cc : Nat) (kw : List (List Char))
    (su : Option (List Char)) (t : Text)
    (h : Text.mk' oc nc th lang wc cc kw su = .ok t) :
    t.text_hash = th ∧ t.language = Text.validate_language_code lang ∧
      t.normalized_content = nc := by
  simp only [Text.mk'] at h
  repeat' split at h
  all_goals
    first
      | (rw [Except.ok.injEq] at h
         rw [← h]
         exact ⟨rfl, rfl, rfl⟩)
      | simp at h

theorem Text.mk'_language_violation (oc nc : List Char) (th : TextHash)
    (lang : Option (List Char)) (wc cc : Nat) (kw : List (List Char))
    (su : Option (List Char)) (t : Text)
    (hv : Text.langFieldViolation lang = true) :
    Text.mk' oc nc th lang wc cc kw su ≠ .ok t := by
  intro h
  simp only [Text.mk'] at h
  repeat' split at h
  all_goals simp_all

theorem Text.create_ok_ne (content : List Char) (u lg : Option (List Char))
    (kw : Option (List (List Char))) (t : Text)
    (h : Text.create content u lg kw = .ok t) :
    content ≠ [] ∧ pyStrip content ≠ [] := by
  by_contra hc
  rw [not_and_or, not_ne_iff, not_ne_iff] at hc
  have : content = [] ∨ pyStrip content = [] := hc
  simp only [Text.create] at h
  rw [if_pos this] at h
  exact absurd h (by simp)

theorem Text.create_ok_hash (content : List Char) (u lg : Option (List Char))
    (kw : Option (List (List Char))) (t : Text)
    (h : Text.create content u lg kw = .ok t) :
    t.text_hash = ⟨sha256hex (utf8Encode (Text.fingerprintPreimage content))⟩ ∧
      t.normalized_content = Text._normalize_content (pyStrip content) := by
  simp only [Text.create] at h
  split_ifs at h with hg
  split at h
  · exact absurd h (by simp)
  · rename_i th heq
    have hfields := Text.mk'_ok_fields _ _ _ _ _ _ _ _ _ h
    by_cases hncnil : Text._normalize_content (pyStrip content) = []
    · simp only [TextHash.from_text] at heq
      rw [if_pos hncnil] at heq
      exact absurd heq (by simp)
    · simp only [TextHash.from_text] at heq
      rw [if_neg hncnil, TextHash.mk'_sha256] at heq
      rw [Except.ok.injEq] at heq
      refine ⟨?_, hfields.2.2⟩
      rw [hfields.1, ← heq]
      rfl

theorem Text.create_ok_language (content : List Char) (u : Option (List Char))
    (lang : List Char) (kw : Option (List (List Char))) (t : Text)
    (hlne : lang ≠ [])
    (h : Text.create content u (some lang) kw = .ok t) :
    t.language = Text.validate_language_code (some lang) := by
  simp only [Text.create] at h
  split_ifs at h with hg
  split at h
  · exact absurd h (by simp)
  · rename_i th heq
    exact (Text.mk'_ok_fields _ _ _ _ _ _ _ _ _ h).2.1

/-! ### Claim C8: invalid language codes -/

set_option maxRecDepth 8000 in
/-- C8, counterexample.  The claim asserts that every invalid language code
still constructs a `Text` with the fallback language "pt".  The code's
pydantic length constraint (2–5 characters) runs before the fallback
validator, so the shape-invalid one-character code "x" makes construction
fail instead of falling back; shape-invalid codes within the length bounds
(such as "xyz") do fall back to "pt". -/
theorem language_constraint_counterexample :
    Text.create "hello world!!".data none (some "x".data) none =
      .error "String length out of range for language" ∧
    (Text.create "hello world!!".data none (some "xyz".data) none).map Text.language =
      .ok "pt".data := by
  refine ⟨by decide, by decide⟩

/-- C8, amended.  A language code that does not match the ISO 639-1 shape
falls back to "pt" only when its length lies within the pydantic `Field`
bounds 2–5 (construction then succeeds with `language = "pt"`); a non-empty
code of length outside 2–5 makes construction fail; the empty string is
replaced by the default "pt" by the factory itself before validation. -/
theorem language_fallback (content lang : List Char) (t : Text) :
    (lang ≠ [] → isoShape lang = false → 2 ≤ lang.length → lang.length ≤ 5 →
      Text.create content none (some lang) none = .ok t → t.language = "pt".data) ∧
    (lang ≠ [] → (lang.length < 2 ∨ 5 < lang.length) →
      Text.create content none (some lang) none ≠ .ok t) ∧
    Text.create content none (some []) none = Text.create content none none none := by
  refine ⟨?_, ?_, ?_⟩
  · intro hne hshape h2 h5 h
    rw [Text.create_ok_language content none lang none t hne h]
    simp only [Text.validate_language_code]
    rw [if_neg (by simp [hshape])]
  · intro hne hlen h
    simp only [Text.create] at h
    split_ifs at h with hg
    split at h
    · exact absurd h (by simp)
    · rename_i th heq
      refine Text.mk'_language_violation _ _ _ _ _ _ _ _ t ?_ h
      simp only [Text.langFieldViolation]
      rcases hlen with hl | hl
      · simp [hl]
      · simp [hl]
  · simp only [Text.create]
    rfl

set_option maxRecDepth 8000 in
/-- C8, witness for the amended theorem: the 3-character invalid code "xyz"
falls back to "pt". -/
theorem language_fallback_witness :
    Text.create "hello world!!".data none (some "xyz".data) none = .ok egTextBang ∧
      egTextBang.language = "pt".data :=
  ⟨by decide,
   (language_fallback "hello world!!".data "xyz".data egTextBang).1
     (by decide) (by decide) (by decide) (by decide) (by decide)⟩

/-! ### Claim C3: the two hashing-normalization pipelines -/

set_option maxRecDepth 8000 in
/-- C3, counterexample.  The claim asserts a single hashing-normalization
pipeline: the fingerprint stored by `Text.create t` always equals
`TextProcessor.generate_hash t`.  For `t = "hello world!!"` the fingerprint
is the SHA-256 of "hello world!!" (the `TextHash` pipeline applies no
punctuation cleanup), while `generate_hash` hashes the cleaned-up
"hello world!", so the digests differ. -/
theorem fingerprint_pipelines_counterexample :
    (Text.create "hello world!!".data none none none).map (fun t => t.text_hash.value) ≠
      TextProcessor.generate_hash "hello world!!".data ∧
    (Text.create "hello world!!".data none none none).map (fun t => t.text_hash.value) =
      .ok (sha256hex (utf8Encode "hello world!!".data)) ∧
    TextProcessor.generate_hash "hello world!!".data =
      .ok (sha256hex (utf8Encode "hello world!".data)) := by
  refine ⟨by decide, by decide, by decide⟩

/-- C3, amended.  The fingerprint stored by `Text.create t` is the SHA-256 of
the `TextHash` pipeline's preimage (strip, collapse whitespace, lowercase,
NFC — without the for-hashing punctuation/quote steps); it equals
`TextProcessor.generate_hash t` exactly on texts where the two pipelines'
preimages coincide, and can differ otherwise (see the counterexample). -/
theorem fingerprint_pipelines_agree (t : List Char) (tx : Text)
    (hpre : Text.fingerprintPreimage t = TextProcessor.normalizeCore t true)
    (hok : Text.create t none none none = .ok tx) :
    TextProcessor.generate_hash t = .ok tx.text_hash.value ∧
    tx.text_hash.value = sha256hex (utf8Encode (Text.fingerprintPreimage t)) := by
  have hne := Text.create_ok_ne t none none none tx hok
  have hhash := (Text.create_ok_hash t none none none tx hok).1
  have hval : tx.text_hash.value = sha256hex (utf8Encode (Text.fingerprintPreimage t)) := by
    rw [hhash]
  refine ⟨?_, hval⟩
  simp only [TextProcessor.generate_hash]
  rw [if_neg hne.1, hval, hpre]

set_option maxRecDepth 8000 in
/-- C3, witness for the amended theorem at "hello world", where both
pipelines produce the preimage "hello world". -/
theorem fingerprint_pipelines_agree_witness :
    TextProcessor.generate_hash "hello world".data = .ok egText.text_hash.value ∧
      egText.text_hash.value = sha256hex (utf8Encode (Text.fingerprintPreimage "hello world".data)) :=
  fingerprint_pipelines_agree "hello world".data egText (by decide) (by decide)

/-! ### Claim C2: hash invariance under quote-style variants -/

set_option maxRecDepth 8000 in
/-- C2, divergence at the failing input.  The claim (and the spec, and the
code's own "Normalize quotes" comment) requires inputs differing only by
curly-vs-straight quote style to hash identically.  In the committed source
the quote character classes contain only straight quotes (the curly-quote
characters were destroyed by the same encoding slip visible in the `'nÃ£o'`
stop word), so the substitutions are identities: the curly-quoted input
keeps its curly quotes in the hash preimage and the digests differ.  The
claim's other parts do hold on the code: the hash is idempotent and
`generate_hash " T " = generate_hash "t"`, and one collapsed run of repeated
terminal punctuation does not change it. -/
theorem quote_style_divergence :
    TextProcessor.generate_hash "“quote” test".data ≠
      TextProcessor.generate_hash "\"quote\" test".data ∧
    TextProcessor.normalizeCore "“quote” test".data true = "“quote” test".data ∧
    TextProcessor.normalizeCore "\"quote\" test".data true = "\"quote\" test".data ∧
    TextProcessor.generate_hash " T ".data = TextProcessor.generate_hash "t".data ∧
    TextProcessor.generate_hash "hello!!! world".data =
      TextProcessor.generate_hash "hello! world".data := by
  refine ⟨by decide, by decide, by decide, by decide, by decide⟩

/-! ### Claim C10: `Text` equality is decided by the fingerprint -/

theorem Char.toNat_ofNat_of_lt {n : Nat} (h : n < 55296) : (Char.ofNat n).toNat = n := by
  have hv : n.isValidChar := Or.inl h
  simp only [Char.ofNat]
  rw [dif_pos hv]
  rfl

theorem char_eq_of_toNat {a b : Char} (h : a.toNat = b.toNat) : a = b :=
  Char.ext (UInt32.toNat.inj h)

theorem toLowerPy_toNat (c : Char) :
    (toLowerPy c).toNat =
      if 65 ≤ c.toNat ∧ c.toNat ≤ 90 then c.toNat + 32
      else if 192 ≤ c.toNat ∧ c.toNat ≤ 222 ∧ c.toNat ≠ 215 then c.toNat + 32
      else c.toNat := by
  simp only [toLowerPy]
  split_ifs with h1 h2 h3 h4 h5 h6 <;>
    simp_all [Bool.and_eq_true, decide_eq_true_eq] <;>
    first
      | (rw [Char.toNat_ofNat_of_lt (by omega)])
      | omega

theorem isPySpace_toLowerPy (c : Char) : isPySpace (toLowerPy c) = isPySpace c := by
  rw [Bool.eq_iff_iff]
  simp only [isPySpace, Bool.or_eq_true, Bool.and_eq_true, decide_eq_true_eq,
    Nat.beq_eq_true_eq, toLowerPy_toNat]
  split_ifs with h1 h2 <;> omega

theorem toLowerPy_space : toLowerPy ' ' = ' ' := by decide

theorem toLowerPy_idem (c : Char) : toLowerPy (toLowerPy c) = toLowerPy c := by
  apply char_eq_of_toNat
  rw [toLowerPy_toNat (toLowerPy c), toLowerPy_toNat c]
  split_ifs <;> omega

theorem keepPred_toLowerPy (c : Char) :
    (!isCatC (toLowerPy c) || toLowerPy c == '\n' || toLowerPy c == '\r' ||
        toLowerPy c == '\t') =
      (!isCatC c || c == '\n' || c == '\r' || c == '\t') := by
  have hch : ∀ (d : Char) (k : Nat), k < 55296 → ((d == Char.ofNat k) = true ↔ d.toNat = k) := by
    intro d k hk
    rw [beq_iff_eq]
    constructor
    · intro h; subst h; exact Char.toNat_ofNat_of_lt hk
    · intro h; exact char_eq_of_toNat (by rw [h, Char.toNat_ofNat_of_lt hk])
  rw [Bool.eq_iff_iff]
  simp only [Bool.or_eq_true, Bool.not_eq_true', isCatC, isCtrlChar]
  have h1 := hch (toLowerPy c) 10 (by norm_num)
  have h2 := hch (toLowerPy c) 13 (by norm_num)
  have h3 := hch (toLowerPy c) 9 (by norm_num)
  have h4 := hch c 10 (by norm_num)
  have h5 := hch c 13 (by norm_num)
  have h6 := hch c 9 (by norm_num)
  simp only [show ('\n' : Char) = Char.ofNat 10 from rfl,
    show ('\r' : Char) = Char.ofNat 13 from rfl,
    show ('\t' : Char) = Char.ofNat 9 from rfl] at *
  rw [h1, h2, h3, h4, h5, h6]
  simp only [Bool.or_eq_false_iff, Bool.and_eq_false_iff, decide_eq_false_iff_not,
    Bool.and_eq_true, decide_eq_true_eq, not_le]
  rw [toLowerPy_toNat]
  split_ifs <;> omega

theorem dropWhile_map_comm (f : Char → Char) (p : Char → Bool)
    (hp : ∀ c, p (f c) = p c) (l : List Char) :
    (l.map f).dropWhile p = (l.dropWhile p).map f := by
  rw [List.dropWhile_map]
  have hpf : (p ∘ f) = p := funext hp
  rw [hpf]

theorem filter_map_comm (f : Char → Char) (p : Char → Bool)
    (hp : ∀ c, p (f c) = p c) (l : List Char) :
    (l.map f).filter p = (l.filter p).map f := by
  rw [List.filter_map]
  have hpf : (p ∘ f) = p := funext hp
  rw [hpf]

theorem pyStrip_map_comm (f : Char → Char)
    (hf : ∀ c, isPySpace (f c) = isPySpace c) (l : List Char) :
    pyStrip (l.map f) = (pyStrip l).map f := by
  unfold pyStrip
  rw [dropWhile_map_comm f _ hf, ← List.map_reverse, dropWhile_map_comm f _ hf,
    ← List.map_reverse]

theorem collapseWsAux_map_comm (f : Char → Char)
    (hf : ∀ c, isPySpace (f c) = isPySpace c) (hsp : f ' ' = ' ')
    (s : Bool) (l : List Char) :
    collapseWsAux s (l.map f) = (collapseWsAux s l).map f := by
  induction l generalizing s with
  | nil => rfl
  | cons c cs ih =>
    simp only [List.map_cons, collapseWsAux, hf c]
    by_cases hws : isPySpace c
    · rw [if_pos hws, if_pos hws]
      cases s <;> simp [hsp, ih]
    · rw [if_neg hws, if_neg hws]
      simp only [List.map_cons, ih false]

theorem collapseWs_map_comm (f : Char → Char)
    (hf : ∀ c, isPySpace (f c) = isPySpace c) (hsp : f ' ' = ' ') (l : List Char) :
    collapseWs (l.map f) = (collapseWs l).map f :=
  collapseWsAux_map_comm f hf hsp false l

theorem fingerprintPreimage_map_toLower (t : List Char) :
    Text.fingerprintPreimage (t.map toLowerPy) = Text.fingerprintPreimage t := by
  unfold Text.fingerprintPreimage TextHash.normalizeText Text._normalize_content nfc
  simp only [pyStrip_map_comm toLowerPy isPySpace_toLowerPy,
    collapseWs_map_comm toLowerPy isPySpace_toLowerPy toLowerPy_space,
    filter_map_comm toLowerPy
      (fun c => !isCatC c || c == '\n' || c == '\r' || c == '\t') keepPred_toLowerPy,
    List.map_map]
  have hcomp : (toLowerPy ∘ toLowerPy) = toLowerPy := funext toLowerPy_idem
  rw [hcomp]

set_option maxRecDepth 8000 in
/-- C10 (confirmed).  `Text` equality is decided solely by the fingerprint:
`a == b` iff the stored hash values are equal, iff the Python-hash keys are
equal; two `Text.create` results whose hash preimages coincide — in
particular contents differing only by letter case (the preimage is invariant
under lowercasing) or whitespace — compare equal and have equal hash keys,
whatever their keywords, language, or source URL; concretely,
"  Hello   World Example  " with keywords ["Alpha"] and language "en" and
"hello world example" with a source URL and keywords ["beta"] produce equal
hash keys but different keywords. -/
theorem text_equality_by_fingerprint (a b x y : Text) (t1 t2 : List Char)
    (u1 u2 lg1 lg2 : Option (List Char)) (kw1 kw2 : Option (List (List Char))) :
    (Text.beqByHash a b = true ↔ a.text_hash.value = b.text_hash.value) ∧
    (Text.beqByHash a b = true ↔ Text.hashKey a = Text.hashKey b) ∧
    (Text.fingerprintPreimage t1 = Text.fingerprintPreimage t2 →
      Text.create t1 u1 lg1 kw1 = .ok x → Text.create t2 u2 lg2 kw2 = .ok y →
      Text.beqByHash x y = true ∧ Text.hashKey x = Text.hashKey y) ∧
    Text.fingerprintPreimage (t1.map toLowerPy) = Text.fingerprintPreimage t1 ∧
    (Text.create "  Hello   World Example  ".data none (some "en".data)
        (some ["Alpha".data])).map Text.hashKey =
      (Text.create "hello world example".data (some "http://example.com".data) none
        (some ["beta".data])).map Text.hashKey ∧
    (Text.create "  Hello   World Example  ".data none (some "en".data)
        (some ["Alpha".data])).map Text.keywords ≠
      (Text.create "hello world example".data (some "http://example.com".data) none
        (some ["beta".data])).map Text.keywords := by
  have hiff : ∀ (u v : Text), Text.beqByHash u v = true ↔ u.text_hash.value = v.text_hash.value := by
    intro u v
    simp [Text.beqByHash]
  refine ⟨hiff a b, hiff a b, ?_, fingerprintPreimage_map_toLower t1, by decide, by decide⟩
  intro hpre h1 h2
  have hx := (Text.create_ok_hash t1 u1 lg1 kw1 x h1).1
  have hy := (Text.create_ok_hash t2 u2 lg2 kw2 y h2).1
  have hval : x.text_hash.value = y.text_hash.value := by
    rw [hx, hy, hpre]
  exact ⟨(hiff x y).mpr hval, hval⟩

set_option maxRecDepth 8000 in
/-- C10, witness: "hello world" and " Hello  World " create equal `Text`
entities. -/
theorem text_equality_by_fingerprint_witness :
    Text.beqByHash egText egTextWs = true ∧ Text.hashKey egText = Text.hashKey egTextWs :=
  (text_equality_by_fingerprint egText egTextWs egText egTextWs
      "hello world".data " Hello  World ".data none none none none none none).2.2.1
    (by decide) (by decide) (by decide)

/-! ### Claim C9: keyword extraction -/

/-- Closed form of the frequency table: the words in first-occurrence order,
each paired with its number of occurrences. -/
def wfForm (l : List (List Char)) : List (List Char × Nat) :=
  (dedupFirst l).map (fun w => (w, l.count w))

theorem bump_append (d : List (List Char)) (g : List Char → Nat) (w : List Char)
    (hw : w ∉ d) :
    TextProcessor.bump (d.map fun u => (u, g u)) w =
      (d.map fun u => (u, g u)) ++ [(w, 1)] := by
  induction d with
  | nil => rfl
  | cons u d' ih =>
    have hne : u ≠ w := fun h => hw (h ▸ List.mem_cons_self u d')
    simp only [List.map_cons, TextProcessor.bump, if_neg hne, List.cons_append]
    rw [ih (fun h => hw (List.mem_cons_of_mem u h))]

theorem bump_update (d : List (List Char)) (g g' : List Char → Nat) (w : List Char)
    (hnd : d.Nodup) (hw : w ∈ d)
    (hg : ∀ u ∈ d, g' u = if u = w then g u + 1 else g u) :
    TextProcessor.bump (d.map fun u => (u, g u)) w = d.map fun u => (u, g' u) := by
  induction d with
  | nil => simp at hw
  | cons u d' ih =>
    simp only [List.map_cons, TextProcessor.bump]
    by_cases hu : u = w
    · rw [if_pos hu]
      subst hu
      have htail : (d'.map fun v => (v, g v)) = d'.map fun v => (v, g' v) := by
        apply List.map_congr_left
        intro v hv
        have hvne : v ≠ u := fun h => (List.nodup_cons.mp hnd).1 (h ▸ hv)
        rw [hg v (List.mem_cons_of_mem u hv), if_neg hvne]
      rw [htail, hg u (List.mem_cons_self u d'), if_pos rfl]
    · rw [if_neg hu]
      have hw' : w ∈ d' := by
        rcases List.mem_cons.mp hw with h | h
        · exact absurd h.symm hu
        · exact h
      rw [ih (List.nodup_cons.mp hnd).2 hw'
          (fun v hv => hg v (List.mem_cons_of_mem u hv)),
        hg u (List.mem_cons_self u d'), if_neg (fun h => hu h)]

theorem dedupFirstAux_append_singleton {α : Type} [DecidableEq α]
    (seen l : List α) (w : α) :
    dedupFirstAux seen (l ++ [w]) =
      if w ∈ seen ∨ w ∈ l then dedupFirstAux seen l
      else dedupFirstAux seen l ++ [w] := by
  induction l generalizing seen with
  | nil =>
    simp only [List.nil_append, dedupFirstAux]
    by_cases hw : w ∈ seen
    · rw [if_pos hw, if_pos (Or.inl hw)]
    · rw [if_neg hw, if_neg (by simp [hw])]
  | cons x l' ih =>
    simp only [List.cons_append, List.append_eq, dedupFirstAux]
    by_cases hx : x ∈ seen
    · rw [if_pos hx, if_pos hx, ih seen]
      by_cases hw : w ∈ seen ∨ w ∈ l'
      · rw [if_pos hw, if_pos (by rcases hw with h | h; exact Or.inl h; exact Or.inr (by simp [h]))]
      · rw [if_neg hw, if_neg (by
          intro hc
          rcases hc with h | h
          · exact hw (Or.inl h)
          · rcases List.mem_cons.mp h with h1 | h1
            · exact hw (Or.inl (h1 ▸ hx))
            · exact hw (Or.inr h1))]
    · rw [if_neg hx, if_neg hx, ih (x :: seen)]
      by_cases hw : w ∈ x :: seen ∨ w ∈ l'
      · rw [if_pos hw, if_pos (by
          rcases hw with h | h
          · rcases List.mem_cons.mp h with h1 | h1
            · exact Or.inr (by simp [h1])
            · exact Or.inl h1
          · exact Or.inr (by simp [h]))]
      · rw [if_neg hw, if_neg (by
          intro hc
          rcases hc with h | h
          · exact hw (Or.inl (List.mem_cons_of_mem x h))
          · rcases List.mem_cons.mp h with h1 | h1
            · exact hw (Or.inl (by simp [h1]))
            · exact hw (Or.inr h1))]
        rfl

theorem count_append_singleton (l : List (List Char)) (w u : List Char) :
    (l ++ [w]).count u = l.count u + if u = w then 1 else 0 := by
  rw [List.count_append]
  by_cases hc : u = w
  · subst hc
    rw [List.count_singleton_self, if_pos rfl]
  · rw [if_neg hc]
    have hz : ([w].count u) = 0 := by
      rw [List.count_eq_zero]
      intro hmem
      rw [List.mem_singleton] at hmem
      exact hc hmem
    rw [hz]

theorem bump_wfForm (pre : List (List Char)) (w : List Char) :
    TextProcessor.bump (wfForm pre) w = wfForm (pre ++ [w]) := by
  by_cases hw : w ∈ pre
  · have hkeys : dedupFirst (pre ++ [w]) = dedupFirst pre := by
      simp only [dedupFirst]
      rw [dedupFirstAux_append_singleton]
      rw [if_pos (Or.inr hw)]
    simp only [wfForm, hkeys]
    apply bump_update
    · exact dedupFirstAux_nodup [] pre
    · rcases dedupFirstAux_complete [] pre w hw with h | h
      · simp at h
      · exact h
    · intro u hu
      rw [count_append_singleton]
      split_ifs <;> omega
  · have hkeys : dedupFirst (pre ++ [w]) = dedupFirst pre ++ [w] := by
      simp only [dedupFirst]
      rw [dedupFirstAux_append_singleton]
      rw [if_neg (by simp [hw])]
    have hwd : w ∉ dedupFirst pre := fun h =>
      hw ((dedupFirstAux_sublist [] pre).subset h)
    simp only [wfForm, hkeys, List.map_append, List.map_cons, List.map_nil]
    rw [bump_append _ _ _ hwd]
    congr 1
    · apply List.map_congr_left
      intro u hu
      have hune : u ≠ w := fun h => hwd (h ▸ hu)
      rw [count_append_singleton, if_neg hune, Nat.add_zero]
    · rw [count_append_singleton, if_pos rfl,
        List.count_eq_zero.mpr (fun h => hw h)]

theorem foldl_bump_wfForm (ws : List (List Char)) :
    ∀ pre : List (List Char), ws.foldl TextProcessor.bump (wfForm pre) = wfForm (pre ++ ws) := by
  induction ws with
  | nil => intro pre; simp
  | cons w ws' ih =>
    intro pre
    rw [List.foldl_cons, bump_wfForm, ih (pre ++ [w])]
    simp

theorem wordFreq_eq_wfForm (ws : List (List Char)) :
    TextProcessor.wordFreq ws = wfForm ws := by
  have h := foldl_bump_wfForm ws []
  simpa [TextProcessor.wordFreq, wfForm, dedupFirst, dedupFirstAux] using h

theorem firstIdx_cons_self (l : List (List Char)) (w : List Char) :
    firstIdx (w :: l) w = 0 := by
  simp [firstIdx]

theorem firstIdx_cons_ne (l : List (List Char)) (x w : List Char) (h : x ≠ w) :
    firstIdx (x :: l) w = firstIdx l w + 1 := by
  simp [firstIdx, h]

theorem dedupFirstAux_firstIdx_pairwise (l : List (List Char)) :
    ∀ seen : List (List Char),
      (dedupFirstAux seen l).Pairwise (fun u v => firstIdx l u < firstIdx l v) := by
  induction l with
  | nil => intro seen; exact List.Pairwise.nil
  | cons x l' ih =>
    intro seen
    simp only [dedupFirstAux]
    split_ifs with hx
    · refine (ih seen).imp_of_mem ?_
      intro u v hu hv huv
      have hux : x ≠ u := fun h =>
        dedupFirstAux_not_mem_seen seen l' u hu (h ▸ hx)
      have hvx : x ≠ v := fun h =>
        dedupFirstAux_not_mem_seen seen l' v hv (h ▸ hx)
      rw [firstIdx_cons_ne l' x u hux, firstIdx_cons_ne l' x v hvx]
      omega
    · refine List.Pairwise.cons ?_ ?_
      · intro v hv
        have hvx : x ≠ v := fun h =>
          dedupFirstAux_not_mem_seen (x :: seen) l' v hv (h ▸ List.mem_cons_self x seen)
        rw [firstIdx_cons_self, firstIdx_cons_ne l' x v hvx]
        omega
      · refine (ih (x :: seen)).imp_of_mem ?_
        intro u v hu hv huv
        have hux : x ≠ u := fun h =>
          dedupFirstAux_not_mem_seen (x :: seen) l' u hu (h ▸ List.mem_cons_self x seen)
        have hvx : x ≠ v := fun h =>
          dedupFirstAux_not_mem_seen (x :: seen) l' v hv (h ▸ List.mem_cons_self x seen)
        rw [firstIdx_cons_ne l' x u hux, firstIdx_cons_ne l' x v hvx]
        omega

theorem pair_sublist_of_mem {α : Type} (l : List α) (a b : α)
    (ha : a ∈ l) (hb : b ∈ l) (hne : a ≠ b) :
    List.Sublist [a, b] l ∨ List.Sublist [b, a] l := by
  induction l with
  | nil => simp at ha
  | cons x l' ih =>
    by_cases hax : a = x
    · subst hax
      have hb' : b ∈ l' := by
        rcases List.mem_cons.mp hb with h | h
        · exact absurd h.symm hne
        · exact h
      exact Or.inl (List.Sublist.cons₂ a (List.singleton_sublist.mpr hb'))
    · by_cases hbx : b = x
      · subst hbx
        have ha' : a ∈ l' := by
          rcases List.mem_cons.mp ha with h | h
          · exact absurd h hax
          · exact h
        exact Or.inr (List.Sublist.cons₂ b (List.singleton_sublist.mpr ha'))
      · have ha' : a ∈ l' := by
          rcases List.mem_cons.mp ha with h | h
          · exact absurd h hax
          · exact h
        have hb' : b ∈ l' := by
          rcases List.mem_cons.mp hb with h | h
          · exact absurd h hbx
          · exact h
        rcases ih ha' hb' with h | h
        · exact Or.inl (h.cons x)
        · exact Or.inr (h.cons x)

theorem nodup_pair_sublist {α : Type} (l : List α) (a b : α) (hnd : l.Nodup)
    (h1 : List.Sublist [a, b] l) (h2 : List.Sublist [b, a] l) : a = b := by
  induction l with
  | nil => simp at h1
  | cons x l' ih =>
    cases h1 with
    | cons _ h1' =>
      cases h2 with
      | cons _ h2' => exact ih (List.nodup_cons.mp hnd).2 h1' h2'
      | cons₂ h2' =>
        have hbmem : b ∈ l' := h1'.subset (by simp)
        exact absurd hbmem (List.nodup_cons.mp hnd).1
    | cons₂ h1' =>
      cases h2 with
      | cons _ h2' =>
        have hamem : a ∈ l' := h2'.subset (by simp)
        exact absurd hamem (List.nodup_cons.mp hnd).1
      | cons₂ h2' => rfl

theorem sortLe_trans (a b c : List Char × Nat) :
    TextProcessor.sortLe a b → TextProcessor.sortLe b c → TextProcessor.sortLe a c := by
  simp only [TextProcessor.sortLe, Nat.ble_eq]
  omega

theorem sortLe_total (a b : List Char × Nat) :
    TextProcessor.sortLe a b || TextProcessor.sortLe b a := by
  simp only [TextProcessor.sortLe, Bool.or_eq_true, Nat.ble_eq]
  omega

theorem wordFreq_pairwise_firstIdx (qs : List (List Char)) :
    (TextProcessor.wordFreq qs).Pairwise (fun p q => firstIdx qs p.1 < firstIdx qs q.1) := by
  rw [wordFreq_eq_wfForm]
  simp only [wfForm]
  rw [List.pairwise_map]
  exact dedupFirstAux_firstIdx_pairwise qs []

theorem wordFreq_mem_spec (qs : List (List Char)) (p : List Char × Nat)
    (hp : p ∈ TextProcessor.wordFreq qs) :
    p.2 = qs.count p.1 ∧ p.1 ∈ qs := by
  rw [wordFreq_eq_wfForm] at hp
  simp only [wfForm, List.mem_map] at hp
  obtain ⟨w, hw, hwp⟩ := hp
  have hwqs : w ∈ qs := (dedupFirstAux_sublist [] qs).subset hw
  rw [← hwp]
  exact ⟨rfl, hwqs⟩

theorem wordFreq_nodup (qs : List (List Char)) : (TextProcessor.wordFreq qs).Nodup :=
  (wordFreq_pairwise_firstIdx qs).imp (fun h => by
    intro heq
    subst heq
    omega)

theorem sorted_wordFreq_pairwise (qs : List (List Char)) :
    ((TextProcessor.wordFreq qs).mergeSort TextProcessor.sortLe).Pairwise
      (fun p q => q.2 < p.2 ∨ (p.2 = q.2 ∧ firstIdx qs p.1 < firstIdx qs q.1)) := by
  have hsorted := List.sorted_mergeSort sortLe_trans sortLe_total
    (TextProcessor.wordFreq qs)
  have hperm := List.mergeSort_perm (TextProcessor.wordFreq qs) TextProcessor.sortLe
  have hsortNodup : ((TextProcessor.wordFreq qs).mergeSort TextProcessor.sortLe).Nodup :=
    hperm.nodup_iff.mpr (wordFreq_nodup qs)
  rw [List.pairwise_iff_forall_sublist]
  intro p q hpq
  have hle : TextProcessor.sortLe p q = true :=
    List.pairwise_iff_forall_sublist.mp hsorted hpq
  have hq2 : q.2 ≤ p.2 := by
    simpa only [TextProcessor.sortLe, Nat.ble_eq] using hle
  by_cases hcnt : q.2 < p.2
  · exact Or.inl hcnt
  · have heqc : p.2 = q.2 := by omega
    refine Or.inr ⟨heqc, ?_⟩
    have hne : p ≠ q := List.pairwise_iff_forall_sublist.mp hsortNodup hpq
    have hpmem : p ∈ TextProcessor.wordFreq qs :=
      List.mem_mergeSort.mp (hpq.subset (by simp))
    have hqmem : q ∈ TextProcessor.wordFreq qs :=
      List.mem_mergeSort.mp (hpq.subset (by simp))
    by_contra hnotlt
    rcases pair_sublist_of_mem _ p q hpmem hqmem hne with hsub | hsub
    · exact hnotlt (List.pairwise_iff_forall_sublist.mp (wordFreq_pairwise_firstIdx qs) hsub)
    · have hleqp : TextProcessor.sortLe q p = true := by
        simp only [TextProcessor.sortLe, Nat.ble_eq]
        omega
      have hsub2 := List.pair_sublist_mergeSort sortLe_trans sortLe_total hleqp hsub
      exact hne (nodup_pair_sublist _ p q hsortNodup hpq hsub2)

/-- C9 (confirmed).  For every text, `extract_keywords_basic` returns at most
`max_keywords` words; every returned word consists only of word characters
(non-word characters stripped), has length at least 3, is not a stop word and
occurs in the qualifying-word sequence of the text; the keywords are
distinct; and they are sorted by frequency (count in the qualifying-word
sequence) descending, ties broken by the order of first occurrence. -/
theorem extract_keywords_spec (t : List Char) (max_keywords : Nat) :
    (TextProcessor.extract_keywords_basic t max_keywords).length ≤ max_keywords ∧
    (∀ w ∈ TextProcessor.extract_keywords_basic t max_keywords,
      (∀ c ∈ w, isWordChar c = true) ∧ 3 ≤ w.length ∧
      w ∉ TextProcessor.stop_words ∧ w ∈ TextProcessor.qualifyingWords t) ∧
    (TextProcessor.extract_keywords_basic t max_keywords).Nodup ∧
    (TextProcessor.extract_keywords_basic t max_keywords).Pairwise (fun w1 w2 =>
      (TextProcessor.qualifyingWords t).count w2 < (TextProcessor.qualifyingWords t).count w1 ∨
      ((TextProcessor.qualifyingWords t).count w1 = (TextProcessor.qualifyingWords t).count w2 ∧
        firstIdx (TextProcessor.qualifyingWords t) w1 <
          firstIdx (TextProcessor.qualifyingWords t) w2)) := by
  by_cases ht : t = []
  · subst ht
    simp [TextProcessor.extract_keywords_basic]
  · have hkw : TextProcessor.extract_keywords_basic t max_keywords =
        (((TextProcessor.wordFreq (TextProcessor.qualifyingWords t)).mergeSort
          TextProcessor.sortLe).take max_keywords).map Prod.fst := by
      simp [TextProcessor.extract_keywords_basic, ht]
    have htake_sub : List.Sublist
        (((TextProcessor.wordFreq (TextProcessor.qualifyingWords t)).mergeSort
          TextProcessor.sortLe).take max_keywords)
        ((TextProcessor.wordFreq (TextProcessor.qualifyingWords t)).mergeSort
          TextProcessor.sortLe) := List.take_sublist _ _
    have hsnodup : ((TextProcessor.wordFreq (TextProcessor.qualifyingWords t)).mergeSort
        TextProcessor.sortLe).Nodup :=
      (List.mergeSort_perm _ _).nodup_iff.mpr (wordFreq_nodup _)
    refine ⟨?_, ?_, ?_, ?_⟩
    · rw [hkw, List.length_map]
      exact List.length_take_le _ _
    · intro w hw
      rw [hkw] at hw
      obtain ⟨p, hp, hpw⟩ := List.mem_map.mp hw
      have hppairs : p ∈ TextProcessor.wordFreq (TextProcessor.qualifyingWords t) :=
        List.mem_mergeSort.mp (htake_sub.subset hp)
      have hqsmem : p.1 ∈ TextProcessor.qualifyingWords t :=
        (wordFreq_mem_spec _ p hppairs).2
      subst hpw
      refine ⟨?_, ?_, ?_, hqsmem⟩
      · intro c hc
        have hmap : p.1 ∈ (splitWs ((TextProcessor.clean_for_analysis t).map
            toLowerPy)).map TextProcessor.cleanWord := by
          have := List.mem_filter.mp hqsmem
          exact this.1
        obtain ⟨u, _, hu⟩ := List.mem_map.mp hmap
        rw [← hu] at hc
        exact List.of_mem_filter hc
      · have hq := (List.mem_filter.mp hqsmem).2
        simp only [TextProcessor.qualifies, Bool.and_eq_true, decide_eq_true_eq] at hq
        exact hq.1
      · have hq := (List.mem_filter.mp hqsmem).2
        simp only [TextProcessor.qualifies, Bool.and_eq_true, Bool.not_eq_true',
          decide_eq_true_eq, List.contains, List.elem_eq_mem,
          decide_eq_false_iff_not] at hq
        exact hq.2
    · rw [hkw]
      refine List.Nodup.map_on ?_ (List.Nodup.sublist htake_sub hsnodup)
      intro x hx y hy hxy
      have hxp := (wordFreq_mem_spec _ x (List.mem_mergeSort.mp (htake_sub.subset hx))).1
      have hyp := (wordFreq_mem_spec _ y (List.mem_mergeSort.mp (htake_sub.subset hy))).1
      cases x with
      | mk x1 x2 =>
        cases y with
        | mk y1 y2 =>
          simp only at hxy hxp hyp
          subst hxy
          rw [hxp, hyp]
    · rw [hkw, List.pairwise_map]
      refine List.Pairwise.imp_of_mem ?_
        (List.Pairwise.sublist htake_sub (sorted_wordFreq_pairwise _))
      intro p q hp hq hrel
      have hp2 := (wordFreq_mem_spec _ p (List.mem_mergeSort.mp (htake_sub.subset hp))).1
      have hq2 := (wordFreq_mem_spec _ q (List.mem_mergeSort.mp (htake_sub.subset hq))).1
      rcases hrel with h | ⟨h1, h2⟩
      · exact Or.inl (by rw [← hp2, ← hq2]; exact h)
      · exact Or.inr ⟨by rw [← hp2, ← hq2]; exact h1, h2⟩

/-- C9, witness at a concrete text and limit. -/
theorem extract_keywords_spec_witness :
    (TextProcessor.extract_keywords_basic "the cat cat dog dog dog bird".data 20).length ≤ 20 ∧
    (∀ w ∈ TextProcessor.extract_keywords_basic "the cat cat dog dog dog bird".data 20,
      (∀ c ∈ w, isWordChar c = true) ∧ 3 ≤ w.length ∧
      w ∉ TextProcessor.stop_words ∧
      w ∈ TextProcessor.qualifyingWords "the cat cat dog dog dog bird".data) ∧
    (TextProcessor.extract_keywords_basic "the cat cat dog dog dog bird".data 20).Nodup ∧
    (TextProcessor.extract_keywords_basic "the cat cat dog dog dog bird".data 20).Pairwise
      (fun w1 w2 =>
        (TextProcessor.qualifyingWords "the cat cat dog dog dog bird".data).count w2 <
          (TextProcessor.qualifyingWords "the cat cat dog dog dog bird".data).count w1 ∨
        ((TextProcessor.qualifyingWords "the cat cat dog dog dog bird".data).count w1 =
            (TextProcessor.qualifyingWords "the cat cat dog dog dog bird".data).count w2 ∧
          firstIdx (TextProcessor.qualifyingWords "the cat cat dog dog dog bird".data) w1 <
            firstIdx (TextProcessor.qualifyingWords "the cat cat dog dog dog bird".data) w2)) :=
  extract_keywords_spec "the cat cat dog dog dog bird".data 20
